import Mathlib

/-!
Verification of the GNC orchestrator core (`gnc::StateManager` and its
supporting types) against its natural-language specification.

The definitions below are a shallow embedding of the C++ sources:

* `include/gnc/common/types.hpp` — `ComponentId`, `StateId`, `StateSpec`,
  `StateAccessType`; `std::any` cells are modelled by `Option CppAny`, where
  `CppAny` pairs the `typeid(T).name()` tag with an (encoded) payload and
  `none` models the empty `std::any` (whose `type()` is `typeid(void)`).
* `include/gnc/core/state_manager.hpp` — registration, the priority-aware
  Kahn sort, cycle diagnostics, dependency validation, the state store
  (`getStateImpl` / `setStateImpl`), `updateAll`, and the destructor's
  finalization pass.
* `include/gnc/core/component_base.hpp` / `state_interface.hpp` — component
  interfaces and their validation.

`std::priority_queue` pops a maximal element of its strict weak order; the
order among comparator-equivalent elements is not specified by the C++
standard.  The embedding refines this by always popping the earliest
comparator-maximal element in container order, and models the contents of the
ready queue by the set of in-degree-zero unscheduled components (which is
exactly the queue's content, since a component is pushed precisely when its
in-degree reaches zero and popped once).
-/

/-- `gnc::states::ComponentId`: a (vehicleId, name) pair with structural
equality.  `VehicleId` is `uint64_t`; its arithmetic is never used by the
orchestrator, so it is modelled by `Nat`. -/
structure ComponentId where
  vehicleId : Nat
  name : String
deriving DecidableEq, Repr

/-- `gnc::states::StateId`: a (component, state-name) pair with structural
equality. -/
structure StateId where
  component : ComponentId
  name : String
deriving DecidableEq, Repr

/-- `gnc::states::StateAccessType`. -/
inductive StateAccessType where
  | Input
  | Output
deriving DecidableEq, Repr

/-- A non-empty `std::any`: the RTTI tag `typeid(T).name()` together with the
held value, encoded as a `Nat` (each concrete C++ value of each supported type
is assigned a code; the orchestrator never inspects payloads). -/
structure CppAny where
  ty : String
  payload : Nat
deriving DecidableEq, Repr

/-- `gnc::states::StateSpec`: name, RTTI type tag, access kind, optional
source `StateId` (inputs), `required` flag and default value.  The
`default_value` member is a `std::any`, modelled as `Option CppAny` with
`none` for the empty any. -/
structure StateSpec where
  name : String
  type : String
  access : StateAccessType
  source : Option StateId
  required : Bool
  default_value : Option CppAny
deriving DecidableEq, Repr

/-- The heterogeneous state store `states_ : unordered_map<StateId, std::any>`,
modelled as an association list.  A key bound to `none` is a cell holding an
empty `std::any`. -/
abbrev Store := List (StateId × Option CppAny)

/-- Key lookup in the store: `none` when no cell exists for the id,
`some v` when a cell exists and holds `v` (possibly the empty any). -/
def lookupCell : Store → StateId → Option (Option CppAny)
  | [], _ => none
  | p :: ps, id => if p.1 = id then some p.2 else lookupCell ps id

/-- Overwrite the cell of an existing key, leaving other cells unchanged
(`states_[id] = value` on a present key). -/
def setCell : Store → StateId → Option CppAny → Store
  | [], _, _ => []
  | p :: ps, id, v => if p.1 = id then (id, v) :: ps else p :: setCell ps id v

/-- Insert-or-assign (`states_[id] = value` on a possibly absent key), used by
`registerComponent` when allocating output cells. -/
def assignCell (st : Store) (id : StateId) (v : Option CppAny) : Store :=
  match lookupCell st id with
  | some _ => setCell st id v
  | none => st ++ [(id, v)]

/-- One scheduling entry of the dependency graph: a registered component's id,
the component-dependency set `componentDependencies_[id]` (stored as a list
with set semantics), and its priority `componentPriorities_[id]`. -/
structure RegEntry where
  id : ComponentId
  deps : List ComponentId
  priority : Int
deriving DecidableEq, Repr

/-- `StateManager::DEFAULT_PRIORITY`. -/
def DEFAULT_PRIORITY : Int := 500

/-- Lexicographic comparison of character lists, modelling
`std::string::operator<` (names are compared as their character sequences). -/
def charListLt : List Char → List Char → Bool
  | [], [] => false
  | [], _ :: _ => true
  | _ :: _, [] => false
  | a :: as, b :: bs =>
    if a.toNat < b.toNat then true
    else if b.toNat < a.toNat then false
    else charListLt as bs

/-- Name comparison used by the comparator, `std::string::operator<`. -/
def nameLt (a b : String) : Bool := charListLt a.data b.data

/-- The strict weak order of the ready queue's comparator
(`priorityComparator`, negated to "is popped in preference to"): higher
priority wins; on equal priority the lexicographically smaller component name
wins.  The `vehicleId` is not consulted. -/
def better (a b : RegEntry) : Bool :=
  if a.priority = b.priority then nameLt a.id.name b.id.name
  else decide (b.priority < a.priority)

/-- Pop of the ready queue: a comparator-maximal element.  Among
comparator-equivalent elements (equal priority and equal name) the C++
standard leaves the pop order unspecified; the embedding takes the earliest
such element in container order. -/
def pickBest : List RegEntry → Option RegEntry
  | [] => none
  | e :: es => some (es.foldl (fun inc c => if better c inc then c else inc) e)

/-- The components currently in the ready queue: not yet scheduled and of
in-degree zero.  A component's in-degree is the number of its dependencies not
yet appended to the order, so in-degree zero is exactly `deps ⊆ acc`. -/
def eligible (remaining : List RegEntry) (acc : List ComponentId) : List RegEntry :=
  remaining.filter (fun e => e.deps.all (fun d => decide (d ∈ acc)))

/-- Main loop of Kahn's algorithm (`while (!readyQueue.empty())`): repeatedly
pop a comparator-maximal ready component and append it.  The fuel argument
bounds iterations; `performPriorityAwareTopologicalSort` supplies enough fuel
for the loop to run to completion.  Returns the produced order and the
entries that never reached in-degree zero. -/
def kahnGo : Nat → List RegEntry → List ComponentId → List ComponentId × List RegEntry
  | 0, remaining, acc => (acc, remaining)
  | Nat.succ fuel, remaining, acc =>
    match pickBest (eligible remaining acc) with
    | none => (acc, remaining)
    | some c => kahnGo fuel (remaining.filter (fun e => decide (e.id ≠ c.id))) (acc ++ [c.id])

/-- Outcome of a failed sort: the partial order produced before the loop
stalled, and the components reported by
`generateCyclicDependencyDiagnostics` — those whose final in-degree is
positive, i.e. the entries never scheduled.  The C++ joins their names into
the `DependencyError` message. -/
structure SortFailure where
  producedOrder : List ComponentId
  cyclicComponents : List ComponentId
deriving DecidableEq, Repr

/-- `StateManager::performPriorityAwareTopologicalSort`: run Kahn's loop; if
the produced order misses some component, fail with the cycle diagnostics. -/
def performPriorityAwareTopologicalSort (entries : List RegEntry) :
    Except SortFailure (List ComponentId) :=
  let r := kahnGo entries.length entries []
  if r.2.isEmpty then Except.ok r.1
  else Except.error ⟨r.1, r.2.map (fun e => e.id)⟩

/-- The dependency edge relation of the graph handed to the sorter:
`hasEdge entries a b` holds when the registered component `a` declares a
dependency on component `b`. -/
def hasEdge (entries : List RegEntry) (a b : ComponentId) : Prop :=
  ∃ e ∈ entries, e.id = a ∧ b ∈ e.deps

instance (entries : List RegEntry) (a b : ComponentId) :
    Decidable (hasEdge entries a b) := by
  unfold hasEdge
  infer_instance

/-- A set of components each of which has an outgoing dependency edge into the
set again.  In a finite graph a nonempty such set exists iff the graph has a
cycle: any cycle is such a set, and conversely following edges inside the set
must revisit a component. -/
def CyclicSet (entries : List RegEntry) (w : List ComponentId) : Prop :=
  w ≠ [] ∧ ∀ x ∈ w, ∃ d ∈ w, hasEdge entries x d

/-- The graph has a dependency cycle. -/
def HasCycle (entries : List RegEntry) : Prop :=
  ∃ w, CyclicSet entries w

/-- Acyclicity, stated through the standard rank characterization: some
numbering of components strictly decreases along every dependency edge.  For
a finite graph this is equivalent to the absence of cycles. -/
def Acyclic (entries : List RegEntry) : Prop :=
  ∃ rank : ComponentId → Nat, ∀ e ∈ entries, ∀ d ∈ e.deps, rank d < rank e.id

/-- Every declared dependency names a registered component. -/
def ClosedGraph (entries : List RegEntry) : Prop :=
  ∀ e ∈ entries, ∀ d ∈ e.deps, d ∈ entries.map (fun x => x.id)


/-- `gnc::states::ComponentBase`: the identity, the declared state specs (in
declaration order, inputs and outputs interleaved as in `stateSpecs_`), and
the component's `updateImpl` behaviour.  An update reads the store it is
handed and issues a sequence of writes to the component's own named states —
`ComponentBase::setState(name, value)` always targets
`StateId{getComponentId(), name}`. -/
structure Component where
  id : ComponentId
  stateSpecs : List StateSpec
  updateF : Store → List (String × CppAny)

/-- The declared inputs, as produced by `getInterface()`. -/
def inputsOf (c : Component) : List StateSpec :=
  c.stateSpecs.filter (fun s => s.access = StateAccessType.Input)

/-- The declared outputs, as produced by `getInterface()`. -/
def outputsOf (c : Component) : List StateSpec :=
  c.stateSpecs.filter (fun s => s.access = StateAccessType.Output)

/-- Interface validation (`StateInterface::validateSpec` during
`getInterface()` plus `StateInterface::validate()`): every spec has a
nonempty name and type tag, state names are unique within the component,
every required input has a source, and every declared source names a
nonempty component and state. -/
def interfaceOk (c : Component) : Bool :=
  c.stateSpecs.all (fun s => s.name ≠ "" && s.type ≠ "") &&
  decide (c.stateSpecs.map (fun s => s.name)).Nodup &&
  (inputsOf c).all (fun s => !s.required || s.source.isSome) &&
  (inputsOf c).all (fun s =>
    match s.source with
    | some src => src.component.name ≠ "" && src.name ≠ ""
    | none => true)

/-- Dependency extraction at registration: for every input spec with a source
and the `required` flag, the source's component is recorded in
`componentDependencies_[id]`. -/
def extractDeps (inputs : List StateSpec) : List ComponentId :=
  inputs.filterMap (fun s =>
    match s.source with
    | some src => if s.required then some src.component else none
    | none => none)

/-- A registry slot: the live component and its priority
(`components_`, `componentPriorities_`). -/
structure RegisteredComponent where
  comp : Component
  priority : Int

/-- The orchestrator state: registered components in registration order
(ids are unique, enforced by `registerComponent`), the state store, the
cached execution order, the stored dependency sets, and the dirty flag. -/
structure Manager where
  components : List RegisteredComponent
  states : Store
  executionOrder : List ComponentId
  componentDependencies : List (ComponentId × List ComponentId)
  needsRevalidation : Bool

/-- The manager with no components (`StateManager` after construction). -/
def emptyManager : Manager :=
  { components := [], states := [], executionOrder := [],
    componentDependencies := [], needsRevalidation := true }

/-- Lookup in `components_`. -/
def findComp (comps : List RegisteredComponent) (id : ComponentId) :
    Option RegisteredComponent :=
  comps.find? (fun rc => rc.comp.id == id)

/-- Membership in `components_`. -/
def isRegistered (m : Manager) (id : ComponentId) : Bool :=
  (findComp m.components id).isSome

/-- Lookup in `componentDependencies_`, defaulting to the empty set as the
graph construction in `validateAndSortComponents` does. -/
def depsOf (m : Manager) (id : ComponentId) : List ComponentId :=
  match m.componentDependencies.find? (fun p => p.1 == id) with
  | some p => p.2
  | none => []

/-- Errors of the orchestrator (`gnc::ConfigurationError`,
`gnc::DependencyError`, `gnc::StateAccessError`), carrying the data the C++
renders into the message strings. -/
inductive GncError where
  | duplicateComponent (id : ComponentId)
  | interfaceValidationFailed (id : ComponentId)
  | unregisteredInOrder (ids : List String)
  | dependencyValidationFailed (violations : List (ComponentId × ComponentId))
  | dependencyCycle (failure : SortFailure)
  | stateNotFound (id : StateId)
  | stateEmpty (id : StateId)
  | stateTypeMismatch (id : StateId) (requested stored : String)
  | undeclaredWrite (id : StateId)
deriving DecidableEq, Repr

/-- `StateManager::registerComponent`: reject duplicate ids, validate the
interface, record dependencies and priority, allocate one cell per declared
output holding the declared default (an empty any when there is none), and
mark the schedule dirty. -/
def registerComponent (m : Manager) (c : Component) (priority : Int) :
    Except GncError Manager :=
  if isRegistered m c.id then Except.error (GncError.duplicateComponent c.id)
  else if !interfaceOk c then Except.error (GncError.interfaceValidationFailed c.id)
  else Except.ok
    { components := m.components ++ [⟨c, priority⟩],
      states := (outputsOf c).foldl
        (fun st spec => assignCell st ⟨c.id, spec.name⟩ spec.default_value) m.states,
      executionOrder := m.executionOrder,
      componentDependencies :=
        m.componentDependencies ++ [(c.id, extractDeps (inputsOf c))],
      needsRevalidation := true }

/-- `StateManager::validateComponentDependencies`: for every stored
component-level dependency, check that the named component is registered;
collect every violation, and fail with the full collection if any.  No
output-state existence or type compatibility is checked here (or anywhere
else before updates run). -/
def validateComponentDependencies (m : Manager) : Except GncError Unit :=
  let errors := m.componentDependencies.flatMap (fun p =>
    (p.2.filter (fun d => !isRegistered m d)).map (fun d => (p.1, d)))
  if errors.isEmpty then Except.ok ()
  else Except.error (GncError.dependencyValidationFailed errors)

/-- The scheduling entries handed to the sorter: one per registered
component, with its stored dependency set and priority. -/
def managerEntries (m : Manager) : List RegEntry :=
  m.components.map (fun rc => ⟨rc.comp.id, depsOf m rc.comp.id, rc.priority⟩)

/-- Result of `validateAndSortComponents`: the manager after the call (the
C++ mutates `executionOrder_` as soon as the sort succeeds, before the later
validation steps), the thrown error if any, and the components on which
`initialize()` was invoked, in invocation order. -/
structure SortOutcome where
  manager : Manager
  result : Except GncError Unit
  initEvents : List ComponentId

/-- `StateManager::validateAndSortComponents`: on a clean manager, do
nothing.  Otherwise sort (a cycle raises `DependencyError`), store the new
execution order, check every ordered id is registered, run
`validateComponentDependencies`, and finally call `initialize()` on every
component of the execution order — all of them, not only newly added ones —
clearing the dirty flag on success. -/
def validateAndSortComponents (m : Manager) : SortOutcome :=
  if !m.needsRevalidation then ⟨m, Except.ok (), []⟩
  else
    match performPriorityAwareTopologicalSort (managerEntries m) with
    | Except.error f => ⟨m, Except.error (GncError.dependencyCycle f), []⟩
    | Except.ok order =>
      let m1 : Manager := { m with executionOrder := order }
      let unregistered := order.filter (fun id => !isRegistered m1 id)
      if !unregistered.isEmpty then
        ⟨m1, Except.error (GncError.unregisteredInOrder
          (unregistered.map (fun id => id.name))), []⟩
      else
        match validateComponentDependencies m1 with
        | Except.error e => ⟨m1, Except.error e, []⟩
        | Except.ok _ =>
          ⟨{ m1 with needsRevalidation := false }, Except.ok (),
            order.filter (fun id => isRegistered m1 id)⟩

/-- `StateManager::getStateImpl`: fail when no cell exists for the id, when
the cell holds an empty any (`value.type() == typeid(void)`), or when the
stored type tag differs from the requested one; otherwise return the held
value.  The caller `IStateAccess::getState<T>` passes `typeid(T).name()`. -/
def getStateImpl (st : Store) (id : StateId) (ty : String) : Except GncError CppAny :=
  match lookupCell st id with
  | none => Except.error (GncError.stateNotFound id)
  | some none => Except.error (GncError.stateEmpty id)
  | some (some v) =>
    if v.ty ≠ ty then Except.error (GncError.stateTypeMismatch id ty v.ty)
    else Except.ok v

/-- `StateManager::setStateImpl`: replace the contents of an existing cell;
fail on an id for which no cell was ever declared.  The caller
`IStateAccess::setState<T>` wraps the value with tag `typeid(T).name()`, and
the implementation performs no type check on writes. -/
def setStateImpl (st : Store) (id : StateId) (v : CppAny) : Except GncError Store :=
  match lookupCell st id with
  | some _ => Except.ok (setCell st id (some v))
  | none => Except.error (GncError.undeclaredWrite id)

/-- Apply one component's writes in order through `setStateImpl`; the first
failing write propagates (aborting the step, as a thrown
`StateAccessError` would). -/
def applyWrites (cid : ComponentId) :
    List (String × CppAny) → Store → Except GncError Store
  | [], st => Except.ok st
  | (n, v) :: ws, st =>
    match setStateImpl st ⟨cid, n⟩ v with
    | Except.error e => Except.error e
    | Except.ok st1 => applyWrites cid ws st1

/-- One component's `update()` as seen by the store: compute the writes from
the current store contents and apply them to the component's own states. -/
def componentUpdate (c : Component) (st : Store) : Except GncError Store :=
  applyWrites c.id (c.updateF st) st

/-- The update loop of `StateManager::updateAll`: walk the execution order
and run each registered component's update once, each against the store left
by its predecessors; ids absent from `components_` are skipped. -/
def runUpdates (comps : List RegisteredComponent) :
    List ComponentId → Store → Except GncError Store
  | [], st => Except.ok st
  | id :: rest, st =>
    match findComp comps id with
    | none => runUpdates comps rest st
    | some rc =>
      match componentUpdate rc.comp st with
      | Except.error e => Except.error e
      | Except.ok st1 => runUpdates comps rest st1

/-- `StateManager::updateAll`: recompute the schedule if dirty, then run one
update pass over the execution order. -/
def updateAll (m : Manager) : Except GncError Manager :=
  let so := validateAndSortComponents m
  match so.result with
  | Except.error e => Except.error e
  | Except.ok _ =>
    match runUpdates so.manager.components so.manager.executionOrder so.manager.states with
    | Except.error e => Except.error e
    | Except.ok st1 => Except.ok { so.manager with states := st1 }

/-- The destructor's finalization pass (`StateManager::~StateManager`): walk
the reverse of the last computed execution order and call `finalize()` on
every id still registered; only then are the components released.  A
component absent from `executionOrder_` is never finalized. -/
def destructorFinalizeOrder (m : Manager) : List ComponentId :=
  m.executionOrder.reverse.filter (fun id => isRegistered m id)

/-- A client-visible operation on the manager: a registration or a typed
write `setState<T>(id, value)` (with `ty = typeid(T).name()`). -/
inductive Op where
  | register (c : Component) (priority : Int)
  | set (id : StateId) (v : CppAny)

/-- Run one operation; a thrown error leaves the manager unchanged (both
C++ paths throw before any mutation).  The second result records a
successful write's id, instrumenting runs with the set of states ever
written. -/
def runOp (m : Manager) : Op → Manager × List StateId
  | Op.register c priority =>
    match registerComponent m c priority with
    | Except.ok m1 => (m1, [])
    | Except.error _ => (m, [])
  | Op.set id v =>
    match setStateImpl m.states id v with
    | Except.ok st1 => ({ m with states := st1 }, [id])
    | Except.error _ => (m, [])

/-- Run a sequence of operations from a starting manager, accumulating the
write log. -/
def runOps (m : Manager) (log : List StateId) : List Op → Manager × List StateId
  | [] => (m, log)
  | op :: ops =>
    let r := runOp m op
    runOps r.1 (log ++ r.2) ops

/-- The id is a declared output of a registered component. -/
def declaredOutput (m : Manager) (id : StateId) : Prop :=
  ∃ rc ∈ m.components, rc.comp.id = id.component ∧
    id.name ∈ (outputsOf rc.comp).map (fun s => s.name)

instance (m : Manager) (id : StateId) : Decidable (declaredOutput m id) := by
  unfold declaredOutput
  infer_instance

/-- The declared default of the output cell for the id: the `default_value`
of the first output spec of that name in the owning component (registration
assigns cells in declaration order, so with validated interfaces there is
exactly one).  `none` both when no such declaration exists and when the
declaration carries no default. -/
def declaredDefault (m : Manager) (id : StateId) : Option CppAny :=
  match findComp m.components id.component with
  | none => none
  | some rc =>
    match (outputsOf rc.comp).find? (fun s => s.name == id.name) with
    | none => none
    | some s => s.default_value

/-- Two entries the ready queue's comparator cannot distinguish: equal
priority and equal name (the `vehicleId` is ignored). -/
def equivEntry (a b : RegEntry) : Prop :=
  a.priority = b.priority ∧ a.id.name = b.id.name

/-- A call raised (`Except.error`). -/
def isErr {α : Type} (x : Except GncError α) : Bool :=
  match x with
  | Except.error _ => true
  | Except.ok _ => false

/-- A component behaviour that writes nothing. -/
def noUpdate : Store → List (String × CppAny) := fun _ => []

/-- Concrete scenario: component A declares a required input sourced from
component B while B declares a required input sourced from A (mutual
dependence). -/
def compMutualA : Component :=
  { id := ⟨1, "A"⟩,
    stateSpecs := [
      { name := "ia", type := "double", access := StateAccessType.Input,
        source := some ⟨⟨1, "B"⟩, "ob"⟩, required := true, default_value := none },
      { name := "oa", type := "double", access := StateAccessType.Output,
        source := none, required := true, default_value := none }],
    updateF := noUpdate }

/-- Mutual-dependence partner of `compMutualA`. -/
def compMutualB : Component :=
  { id := ⟨1, "B"⟩,
    stateSpecs := [
      { name := "ib", type := "double", access := StateAccessType.Input,
        source := some ⟨⟨1, "A"⟩, "oa"⟩, required := true, default_value := none },
      { name := "ob", type := "double", access := StateAccessType.Output,
        source := none, required := true, default_value := none }],
    updateF := noUpdate }

/-- The manager holding the mutually dependent pair. -/
def mMutual : Manager :=
  (runOps emptyManager [] [Op.register compMutualA 500, Op.register compMutualB 500]).1

/-- Concrete scenario: a component whose required input is sourced from a
component that is never registered (a dangling but acyclic dependency edge). -/
def compDangling : Component :=
  { id := ⟨1, "C1A"⟩,
    stateSpecs := [
      { name := "in1", type := "double", access := StateAccessType.Input,
        source := some ⟨⟨1, "Z"⟩, "out1"⟩, required := true, default_value := none }],
    updateF := noUpdate }

/-- The manager holding only `compDangling`. -/
def mDangling : Manager :=
  (runOps emptyManager [] [Op.register compDangling 500]).1

/-- Concrete scenario for connection validation: the input of `compC3A` names
source state `x` of component `C3B` with type tag `double`. -/
def compC3A : Component :=
  { id := ⟨1, "C3A"⟩,
    stateSpecs := [
      { name := "in1", type := "double", access := StateAccessType.Input,
        source := some ⟨⟨1, "C3B"⟩, "x"⟩, required := true, default_value := none }],
    updateF := noUpdate }

/-- Registered source component of `compC3A`: it declares no output named `x`
at all, only an output `y` of type tag `int`. -/
def compC3B : Component :=
  { id := ⟨1, "C3B"⟩,
    stateSpecs := [
      { name := "y", type := "int", access := StateAccessType.Output,
        source := none, required := true, default_value := none }],
    updateF := noUpdate }

/-- The manager holding `compC3A` and `compC3B`. -/
def mC3 : Manager :=
  (runOps emptyManager [] [Op.register compC3A 500, Op.register compC3B 500]).1

/-- A dependency-free component named `C6A` with one output. -/
def compC6A : Component :=
  { id := ⟨1, "C6A"⟩,
    stateSpecs := [
      { name := "oa", type := "double", access := StateAccessType.Output,
        source := none, required := true, default_value := none }],
    updateF := noUpdate }

/-- A dependency-free component named `C6B`, registered mid-run. -/
def compC6B : Component :=
  { id := ⟨1, "C6B"⟩,
    stateSpecs := [
      { name := "ob", type := "double", access := StateAccessType.Output,
        source := none, required := true, default_value := none }],
    updateF := noUpdate }

/-- First schedule computation: only `compC6A` is registered. -/
def soC6first : SortOutcome :=
  validateAndSortComponents (runOps emptyManager [] [Op.register compC6A 500]).1

/-- Mid-run registration of `compC6B` after the first computation. -/
def mC6second : Manager :=
  match registerComponent soC6first.manager compC6B 500 with
  | Except.ok m => m
  | Except.error _ => soC6first.manager

/-- Second schedule computation, after the mid-run registration. -/
def soC6second : SortOutcome :=
  validateAndSortComponents mC6second

/-- Manager for the teardown scenario: `compC6A` registered and scheduled,
then `compC6B` registered with no schedule recomputation before destruction. -/
def mC10 : Manager :=
  match registerComponent soC6first.manager compC6B 500 with
  | Except.ok m => m
  | Except.error _ => soC6first.manager

/-- Two dependency-free entries with equal priority and equal name under
different vehicle ids, in one registration order. -/
def entriesTieA : List RegEntry :=
  [⟨⟨1, "X"⟩, [], 500⟩, ⟨⟨2, "X"⟩, [], 500⟩]

/-- The same entries in the other registration order. -/
def entriesTieB : List RegEntry :=
  [⟨⟨2, "X"⟩, [], 500⟩, ⟨⟨1, "X"⟩, [], 500⟩]

/-- Two independent components with priorities 10 and 20. -/
def entriesPrio : List RegEntry :=
  [⟨⟨1, "P10"⟩, [], 10⟩, ⟨⟨1, "P20"⟩, [], 20⟩]

/-- Sensor→Filter chain for the same-step-visibility scenario: `Sensor`
writes `x := 1`; `Filter` reads `Sensor.x` and writes `y := x + 1`. -/
def compSensor : Component :=
  { id := ⟨1, "Sensor"⟩,
    stateSpecs := [
      { name := "x", type := "double", access := StateAccessType.Output,
        source := none, required := true, default_value := some ⟨"double", 0⟩ }],
    updateF := fun _ => [("x", ⟨"double", 1⟩)] }

/-- Filter of the same-step-visibility scenario. -/
def compFilter : Component :=
  { id := ⟨1, "Filter"⟩,
    stateSpecs := [
      { name := "in1", type := "double", access := StateAccessType.Input,
        source := some ⟨⟨1, "Sensor"⟩, "x"⟩, required := true, default_value := none },
      { name := "y", type := "double", access := StateAccessType.Output,
        source := none, required := true, default_value := some ⟨"double", 0⟩ }],
    updateF := fun st =>
      match lookupCell st ⟨⟨1, "Sensor"⟩, "x"⟩ with
      | some (some v) => [("y", ⟨"double", v.payload + 1⟩)]
      | _ => [("y", ⟨"double", 99⟩)] }

/-- Manager for the same-step-visibility scenario. -/
def mChain : Manager :=
  (runOps emptyManager []
    [Op.register compSensor 500, Op.register compFilter 500]).1

/-- A component with one output of type tag `double` and no default, used for
the store round-trip and access-error scenarios. -/
def compStore : Component :=
  { id := ⟨1, "W"⟩,
    stateSpecs := [
      { name := "out1", type := "double", access := StateAccessType.Output,
        source := none, required := true, default_value := none }],
    updateF := noUpdate }

/-- Operation sequence registering `compStore` and writing its output with a
`double`-tagged value. -/
def opsStore : List Op :=
  [Op.register compStore 500, Op.set ⟨⟨1, "W"⟩, "out1"⟩ ⟨"double", 42⟩]

/-- Every stored dependency set names only registered components. -/
def DepsRegistered (m : Manager) : Prop :=
  ∀ p ∈ m.componentDependencies, ∀ d ∈ p.2, isRegistered m d = true

instance (m : Manager) : Decidable (DepsRegistered m) := by
  unfold DepsRegistered
  infer_instance


theorem charListLt_irrefl (l : List Char) : charListLt l l = false := by
  induction l with
  | nil => rfl
  | cons a as ih => simp [charListLt, ih]

theorem charListLt_trans {a b c : List Char} (hab : charListLt a b = true)
    (hbc : charListLt b c = true) : charListLt a c = true := by
  induction a generalizing b c with
  | nil =>
    cases b with
    | nil => simp [charListLt] at hab
    | cons y ys =>
      cases c with
      | nil => simp [charListLt] at hbc
      | cons z zs => rfl
  | cons x xs ih =>
    cases b with
    | nil => simp [charListLt] at hab
    | cons y ys =>
      cases c with
      | nil => simp [charListLt] at hbc
      | cons z zs =>
        simp only [charListLt] at hab hbc ⊢
        split at hab
        · next hxy =>
          split
          · rfl
          · next hzx =>
            exfalso
            split at hbc
            · next hyz => omega
            · split at hbc
              · exact Bool.false_ne_true hbc
              · next h1 h2 => omega
        · split at hab
          · exact absurd hab Bool.false_ne_true
          · next hyx hxy =>
            split at hbc
            · next hyz =>
              split
              · rfl
              · next hzx => omega
            · split at hbc
              · exact absurd hbc Bool.false_ne_true
              · next hzy hyz =>
                split
                · rfl
                · next hzx =>
                  have hxz : x.toNat = z.toNat := by omega
                  split
                  · next h => omega
                  · exact ih hab hbc

theorem charListLt_antisymm {a b : List Char} (hab : charListLt a b = false)
    (hba : charListLt b a = false) : a = b := by
  induction a generalizing b with
  | nil =>
    cases b with
    | nil => rfl
    | cons y ys => simp [charListLt] at hab
  | cons x xs ih =>
    cases b with
    | nil => simp [charListLt] at hba
    | cons y ys =>
      simp only [charListLt] at hab hba
      split at hab
      · exact absurd hab (by decide)
      · next hxy =>
        split at hab
        · next hyx =>
          split at hba
          · exact absurd hba (by decide)
          · omega
        · next hyx =>
          have hx : x.toNat = y.toNat := by omega
          have hchar : x = y :=
            Char.eq_of_val_eq (UInt32.eq_of_val_eq (Fin.eq_of_val_eq hx))
          subst hchar
          simp only [charListLt, lt_irrefl, if_false] at hba
          rw [ih hab (by simpa using hba)]

theorem nameLt_irrefl (s : String) : nameLt s s = false :=
  charListLt_irrefl s.data

theorem nameLt_trans {a b c : String} (hab : nameLt a b = true)
    (hbc : nameLt b c = true) : nameLt a c = true :=
  charListLt_trans hab hbc

theorem nameLt_antisymm {a b : String} (hab : nameLt a b = false)
    (hba : nameLt b a = false) : a = b := by
  exact congrArg String.mk (charListLt_antisymm hab hba)

theorem better_irrefl (a : RegEntry) : better a a = false := by
  simp [better, nameLt_irrefl]

theorem better_trans {a b c : RegEntry} (hab : better a b = true)
    (hbc : better b c = true) : better a c = true := by
  unfold better at hab hbc ⊢
  split at hab
  · next hpab =>
    split at hbc
    · next hpbc =>
      rw [if_pos (hpab.trans hpbc)]
      exact nameLt_trans hab hbc
    · next hpbc =>
      rw [if_neg (fun h => hpbc (hpab ▸ h)), decide_eq_true_iff]
      rw [decide_eq_true_iff] at hbc
      omega
  · next hpab =>
    rw [decide_eq_true_iff] at hab
    split at hbc
    · next hpbc =>
      rw [if_neg (by omega), decide_eq_true_iff]
      omega
    · next hpbc =>
      rw [decide_eq_true_iff] at hbc
      rw [if_neg (by omega), decide_eq_true_iff]
      omega

theorem better_antisymm {a b : RegEntry} (hab : better a b = false)
    (hba : better b a = false) : equivEntry a b := by
  unfold better at hab hba
  split at hab
  · next hp =>
    rw [if_pos hp.symm] at hba
    exact ⟨hp, nameLt_antisymm hab hba⟩
  · next hp =>
    rw [if_neg (fun h => hp h.symm), decide_eq_false_iff_not] at hba
    rw [decide_eq_false_iff_not] at hab
    omega

theorem better_congr_right {a b c : RegEntry} (h : equivEntry b c) :
    better a b = better a c := by
  unfold better
  rw [h.1, h.2]

theorem better_neg_trans {a b c : RegEntry} (hab : better a b = false)
    (hbc : better b c = false) : better a c = false := by
  cases hac : better a c with
  | false => rfl
  | true =>
    exfalso
    cases hcb : better c b with
    | true =>
      have := better_trans hac hcb
      rw [this] at hab
      simp at hab
    | false =>
      have hequiv := better_antisymm hbc hcb
      rw [better_congr_right hequiv, hac] at hab
      simp at hab

theorem pickBest_eq_none {l : List RegEntry} : pickBest l = none ↔ l = [] := by
  cases l with
  | nil => simp [pickBest]
  | cons e es => simp [pickBest]

theorem foldlMax_spec (es : List RegEntry) (inc : RegEntry) :
    (es.foldl (fun i c => if better c i then c else i) inc) ∈ inc :: es ∧
    ∀ e ∈ inc :: es, better e (es.foldl (fun i c => if better c i then c else i) inc) = false := by
  induction es generalizing inc with
  | nil =>
    refine ⟨List.mem_cons_self inc [], ?_⟩
    intro e he
    rw [List.mem_singleton] at he
    subst he
    exact better_irrefl e
  | cons c es ih =>
    rw [List.foldl_cons]
    by_cases hb : better c inc = true
    · rw [if_pos hb]
      obtain ⟨hmem, hall⟩ := ih c
      refine ⟨List.mem_cons_of_mem inc hmem, ?_⟩
      intro e he
      rcases List.mem_cons.mp he with rfl | he1
      · cases her : better e (es.foldl (fun i c => if better c i then c else i) c) with
        | false => rfl
        | true =>
          exfalso
          have h2 := better_trans hb her
          have hcr := hall c (List.mem_cons_self c es)
          rw [hcr] at h2
          simp at h2
      · rcases List.mem_cons.mp he1 with rfl | he2
        · exact hall e (List.mem_cons_self e es)
        · exact hall e (List.mem_cons_of_mem c he2)
    · rw [if_neg hb]
      obtain ⟨hmem, hall⟩ := ih inc
      refine ⟨?_, ?_⟩
      · rcases List.mem_cons.mp hmem with h | h
        · exact List.mem_cons.mpr (Or.inl h)
        · exact List.mem_cons_of_mem inc (List.mem_cons_of_mem c h)
      · intro e he
        rcases List.mem_cons.mp he with rfl | he1
        · exact hall e (List.mem_cons_self e es)
        · rcases List.mem_cons.mp he1 with rfl | he2
          · exact better_neg_trans (by simpa using hb) (hall inc (List.mem_cons_self inc es))
          · exact hall e (List.mem_cons_of_mem inc he2)

theorem pickBest_spec {l : List RegEntry} {c : RegEntry} (h : pickBest l = some c) :
    c ∈ l ∧ ∀ e ∈ l, better e c = false := by
  cases l with
  | nil => simp [pickBest] at h
  | cons e es =>
    simp only [pickBest, Option.some.injEq] at h
    obtain ⟨hmem, hall⟩ := foldlMax_spec es e
    rw [h] at hmem hall
    exact ⟨hmem, hall⟩

theorem mem_eligible {remaining : List RegEntry} {acc : List ComponentId} {e : RegEntry} :
    e ∈ eligible remaining acc ↔ e ∈ remaining ∧ ∀ d ∈ e.deps, d ∈ acc := by
  simp [eligible, List.mem_filter, List.all_eq_true]

theorem filterNeLength {l : List RegEntry} {c : RegEntry}
    (hnd : (l.map RegEntry.id).Nodup) (hc : c ∈ l) :
    (l.filter (fun e => decide (e.id ≠ c.id))).length + 1 = l.length := by
  induction l with
  | nil => cases hc
  | cons a t ih =>
    rw [List.map_cons, List.nodup_cons] at hnd
    by_cases hid : a.id = c.id
    · have htkeep : t.filter (fun e => decide (e.id ≠ c.id)) = t := by
        apply List.filter_eq_self.mpr
        intro e he
        simp only [decide_eq_true_iff]
        intro heq
        exact hnd.1 (List.mem_map.mpr ⟨e, he, heq.trans hid.symm⟩)
      simp only [List.filter_cons]
      rw [if_neg (by simp [hid])]
      rw [htkeep]
      simp
    · have hct : c ∈ t := by
        rcases List.mem_cons.mp hc with rfl | h
        · exact absurd rfl hid
        · exact h
      have := ih hnd.2 hct
      simp only [List.filter_cons]
      rw [if_pos (by simpa using hid)]
      simp only [List.length_cons]
      omega

theorem remaining_ids_nodup {entries remaining : List RegEntry} {acc : List ComponentId}
    (hnd : (entries.map RegEntry.id).Nodup)
    (h : remaining = entries.filter (fun e => decide (e.id ∉ acc))) :
    (remaining.map RegEntry.id).Nodup := by
  subst h
  exact hnd.sublist (List.Sublist.map _ (List.filter_sublist _))

theorem entry_unique {entries : List RegEntry} (hnd : (entries.map RegEntry.id).Nodup)
    {e1 e2 : RegEntry} (h1 : e1 ∈ entries) (h2 : e2 ∈ entries) (h : e1.id = e2.id) :
    e1 = e2 :=
  List.inj_on_of_nodup_map hnd h1 h2 h

theorem exists_min_by {α : Type} (f : α → Nat) {l : List α} (hne : l ≠ []) :
    ∃ a ∈ l, ∀ b ∈ l, f a ≤ f b := by
  induction l with
  | nil => exact absurd rfl hne
  | cons x t ih =>
    cases t with
    | nil =>
      refine ⟨x, List.mem_singleton_self x, ?_⟩
      intro b hb
      rw [List.mem_singleton] at hb
      subst hb
      exact le_refl _
    | cons y u =>
      obtain ⟨a, ha, hmin⟩ := ih (by simp)
      by_cases h : f x ≤ f a
      · refine ⟨x, List.mem_cons_self x (y :: u), ?_⟩
        intro b hb
        rcases List.mem_cons.mp hb with rfl | hb
        · exact le_refl _
        · exact le_trans h (hmin b hb)
      · refine ⟨a, List.mem_cons_of_mem x ha, ?_⟩
        intro b hb
        rcases List.mem_cons.mp hb with rfl | hb
        · omega
        · exact hmin b hb

/-- Invariant of the Kahn loop relating the not-yet-scheduled entries and the
produced order: the remaining entries are exactly those not yet appended, the
order has no duplicates, only registered ids, complements the remaining count,
and every appended component's dependencies appear strictly earlier. -/
structure KahnInv (entries remaining : List RegEntry) (acc : List ComponentId) : Prop where
  rem_eq : remaining = entries.filter (fun e => decide (e.id ∉ acc))
  acc_nodup : acc.Nodup
  acc_sub : ∀ x ∈ acc, x ∈ entries.map RegEntry.id
  acc_len : acc.length + remaining.length = entries.length
  acc_sound : ∀ (k : Nat) (hk : k < acc.length), ∀ e ∈ entries,
    acc.get ⟨k, hk⟩ = e.id → ∀ d ∈ e.deps, d ∈ acc.take k

theorem kahnInv_init (entries : List RegEntry) : KahnInv entries entries [] := by
  refine ⟨?_, List.nodup_nil, ?_, ?_, ?_⟩
  · symm
    apply List.filter_eq_self.mpr
    intro e he
    simp
  · intro x hx
    cases hx
  · simp
  · intro k hk
    simp at hk

theorem kahnInv_step {entries remaining : List RegEntry} {acc : List ComponentId}
    (hnd : (entries.map RegEntry.id).Nodup)
    (inv : KahnInv entries remaining acc) {c : RegEntry}
    (hpick : pickBest (eligible remaining acc) = some c) :
    KahnInv entries (remaining.filter (fun e => decide (e.id ≠ c.id))) (acc ++ [c.id]) ∧
    c ∈ remaining ∧ c.id ∉ acc ∧ (∀ d ∈ c.deps, d ∈ acc) ∧ c ∈ entries := by
  obtain ⟨hcel, -⟩ := pickBest_spec hpick
  rw [mem_eligible] at hcel
  obtain ⟨hcrem, hcdeps⟩ := hcel
  have hcent : c ∈ entries := by
    rw [inv.rem_eq] at hcrem
    exact List.mem_of_mem_filter hcrem
  have hcnot : c.id ∉ acc := by
    rw [inv.rem_eq] at hcrem
    have := List.of_mem_filter hcrem
    simpa using this
  refine ⟨⟨?_, ?_, ?_, ?_, ?_⟩, hcrem, hcnot, hcdeps, hcent⟩
  · rw [inv.rem_eq, List.filter_filter]
    apply List.filter_congr
    intro e he
    by_cases h1 : e.id ∈ acc <;> by_cases h2 : e.id = c.id <;>
      simp [h1, h2, List.mem_append]
  · simp [List.nodup_append, inv.acc_nodup, hcnot]
  · intro x hx
    rcases List.mem_append.mp hx with h | h
    · exact inv.acc_sub x h
    · rw [List.mem_singleton] at h
      subst h
      exact List.mem_map.mpr ⟨c, hcent, rfl⟩
  · have hflen := filterNeLength (remaining_ids_nodup hnd inv.rem_eq) hcrem
    have hlen := inv.acc_len
    simp only [List.length_append, List.length_singleton]
    omega
  · intro k hk e he hgt d hd
    by_cases hkl : k < acc.length
    · have hgeq : (acc ++ [c.id]).get ⟨k, hk⟩ = acc.get ⟨k, hkl⟩ := by
        simp only [List.get_eq_getElem]
        exact List.getElem_append_left hkl
      have hold := inv.acc_sound k hkl e he (by rw [← hgeq]; exact hgt) d hd
      rw [List.take_append_eq_append_take]
      have hz : k - acc.length = 0 := by omega
      rw [hz]
      simp only [List.take_zero, List.append_nil]
      exact hold
    · have hk_eq : k = acc.length := by
        simp only [List.length_append, List.length_singleton] at hk
        omega
      subst hk_eq
      have hgc : (acc ++ [c.id]).get ⟨acc.length, hk⟩ = c.id := by
        simp
      have heid : e.id = c.id := by
        rw [← hgt, hgc]
      have hec : e = c := entry_unique hnd he hcent heid
      rw [List.take_left]
      exact hcdeps d (hec ▸ hd)

theorem kahnGo_master {entries : List RegEntry}
    (hnd : (entries.map RegEntry.id).Nodup) :
    ∀ (fuel : Nat) (remaining : List RegEntry) (acc : List ComponentId),
      KahnInv entries remaining acc → remaining.length ≤ fuel →
      KahnInv entries (kahnGo fuel remaining acc).2 (kahnGo fuel remaining acc).1 ∧
      eligible (kahnGo fuel remaining acc).2 (kahnGo fuel remaining acc).1 = [] ∧
      (∀ w, CyclicSet entries w → (∀ x ∈ w, x ∉ acc) →
        ∀ x ∈ w, x ∉ (kahnGo fuel remaining acc).1) := by
  intro fuel
  induction fuel with
  | zero =>
    intro remaining acc inv hlen
    have hrem : remaining = [] := List.length_eq_zero.mp (Nat.le_zero.mp hlen)
    subst hrem
    exact ⟨inv, rfl, fun w hw hnot x hx => hnot x hx⟩
  | succ fuel ih =>
    intro remaining acc inv hlen
    cases hpick : pickBest (eligible remaining acc) with
    | none =>
      simp only [kahnGo, hpick]
      exact ⟨inv, pickBest_eq_none.mp hpick ▸ rfl, fun w hw hnot x hx => hnot x hx⟩
    | some c =>
      simp only [kahnGo, hpick]
      obtain ⟨inv2, hcrem, hcnot, hcdeps, hcent⟩ := kahnInv_step hnd inv hpick
      have hlen2 : (remaining.filter (fun e => decide (e.id ≠ c.id))).length ≤ fuel := by
        have := filterNeLength (remaining_ids_nodup hnd inv.rem_eq) hcrem
        omega
      obtain ⟨r1, r2, r3⟩ := ih _ _ inv2 hlen2
      refine ⟨r1, r2, ?_⟩
      intro w hw hnot x hx
      have hcw : c.id ∉ w := by
        intro hcwmem
        obtain ⟨d, hdw, hedge⟩ := hw.2 c.id hcwmem
        obtain ⟨e, hee, heid, hdd⟩ := hedge
        have hec : e = c := entry_unique hnd hee hcent heid
        subst hec
        exact hnot d hdw (hcdeps d hdd)
      apply r3 w hw ?_ x hx
      intro y hy hymem
      rcases List.mem_append.mp hymem with h | h
      · exact hnot y hy h
      · rw [List.mem_singleton] at h
        subst h
        exact hcw hy

theorem kahn_stall_empty {entries remF : List RegEntry} {accF : List ComponentId}
    (hnd : (entries.map RegEntry.id).Nodup) (hclosed : ClosedGraph entries)
    (hacyc : Acyclic entries) (inv : KahnInv entries remF accF)
    (hel : eligible remF accF = []) : remF = [] := by
  by_contra hne
  obtain ⟨rank, hrank⟩ := hacyc
  obtain ⟨e0, he0, hmin⟩ := exists_min_by (fun e => rank e.id) hne
  have hne0 : ¬(∀ d ∈ e0.deps, d ∈ accF) := by
    intro hall
    have hmem : e0 ∈ eligible remF accF := mem_eligible.mpr ⟨he0, hall⟩
    rw [hel] at hmem
    cases hmem
  push_neg at hne0
  obtain ⟨d, hd, hdnot⟩ := hne0
  have he0e : e0 ∈ entries := by
    rw [inv.rem_eq] at he0
    exact List.mem_of_mem_filter he0
  have hdid := hclosed e0 he0e d hd
  obtain ⟨ed, hede, hedid⟩ := List.mem_map.mp hdid
  have hedrem : ed ∈ remF := by
    rw [inv.rem_eq]
    exact List.mem_filter.mpr ⟨hede, by simp [hedid, hdnot]⟩
  have h1 := hrank e0 he0e d hd
  have h2 := hmin ed hedrem
  rw [hedid] at h2
  omega

/-- When no two distinct ready entries are comparator-equivalent, the popped
maximum is determined by the set of ready entries alone. -/
theorem pickBest_perm_eq {l1 l2 : List RegEntry} (hperm : l1.Perm l2)
    (htot : ∀ a ∈ l1, ∀ b ∈ l1, a ≠ b → better a b = true ∨ better b a = true)
    {c1 c2 : RegEntry} (h1 : pickBest l1 = some c1) (h2 : pickBest l2 = some c2) :
    c1 = c2 := by
  obtain ⟨hm1, hall1⟩ := pickBest_spec h1
  obtain ⟨hm2, hall2⟩ := pickBest_spec h2
  by_contra hne
  have hm2l1 : c2 ∈ l1 := hperm.symm.subset hm2
  have hm1l2 : c1 ∈ l2 := hperm.subset hm1
  rcases htot c1 hm1 c2 hm2l1 hne with h | h
  · rw [hall2 c1 hm1l2] at h
    simp at h
  · rw [hall1 c2 hm2l1] at h
    simp at h

theorem kahnGo_perm :
    ∀ (fuel : Nat) (r1 r2 : List RegEntry) (acc : List ComponentId),
      r1.Perm r2 →
      (∀ a ∈ r1, ∀ b ∈ r1, a ≠ b → better a b = true ∨ better b a = true) →
      (kahnGo fuel r1 acc).1 = (kahnGo fuel r2 acc).1 ∧
      (kahnGo fuel r1 acc).2.Perm (kahnGo fuel r2 acc).2 := by
  intro fuel
  induction fuel with
  | zero =>
    intro r1 r2 acc hperm htot
    exact ⟨rfl, hperm⟩
  | succ fuel ih =>
    intro r1 r2 acc hperm htot
    have hel : (eligible r1 acc).Perm (eligible r2 acc) := hperm.filter _
    cases hpick1 : pickBest (eligible r1 acc) with
    | none =>
      have he1 : eligible r1 acc = [] := pickBest_eq_none.mp hpick1
      have he2 : eligible r2 acc = [] := by
        have := he1 ▸ hel
        exact this.symm.eq_nil
      simp only [kahnGo, hpick1, pickBest_eq_none.mpr he2]
      exact ⟨by simp, hperm⟩
    | some c1 =>
      have he1ne : eligible r1 acc ≠ [] := by
        intro h
        rw [pickBest_eq_none.mpr h] at hpick1
        cases hpick1
      have he2ne : eligible r2 acc ≠ [] := by
        intro h
        apply he1ne
        rw [h] at hel
        exact hel.eq_nil
      obtain ⟨c2, hpick2⟩ : ∃ c2, pickBest (eligible r2 acc) = some c2 := by
        cases hp : pickBest (eligible r2 acc) with
        | none => exact absurd (pickBest_eq_none.mp hp) he2ne
        | some c => exact ⟨c, rfl⟩
      have htotel : ∀ a ∈ eligible r1 acc, ∀ b ∈ eligible r1 acc, a ≠ b →
          better a b = true ∨ better b a = true := by
        intro a ha b hb hne
        exact htot a (List.mem_of_mem_filter ha) b (List.mem_of_mem_filter hb) hne
      have hc12 : c1 = c2 := pickBest_perm_eq hel htotel hpick1 hpick2
      subst hc12
      simp only [kahnGo, hpick1, hpick2]
      apply ih
      · exact hperm.filter _
      · intro a ha b hb hne
        exact htot a (List.mem_of_mem_filter ha) b (List.mem_of_mem_filter hb) hne

theorem lookupCell_setCell_self {st : Store} {id : StateId} {v : Option CppAny}
    (h : (lookupCell st id).isSome) : lookupCell (setCell st id v) id = some v := by
  induction st with
  | nil => simp [lookupCell] at h
  | cons p ps ih =>
    by_cases hp : p.1 = id
    · simp [setCell, lookupCell, hp]
    · simp only [setCell, lookupCell, hp, if_false, if_neg hp] at h ⊢
      exact ih h

theorem lookupCell_setCell_ne {st : Store} {id id2 : StateId} {v : Option CppAny}
    (hne : id2 ≠ id) : lookupCell (setCell st id v) id2 = lookupCell st id2 := by
  induction st with
  | nil => simp [setCell, lookupCell]
  | cons p ps ih =>
    by_cases hp : p.1 = id
    · simp only [setCell, if_pos hp, lookupCell]
      rw [if_neg (fun h => hne (h.symm)), if_neg (by rw [hp]; exact fun h => hne h.symm)]
    · simp only [setCell, if_neg hp, lookupCell]
      by_cases hp2 : p.1 = id2
      · rw [if_pos hp2, if_pos hp2]
      · rw [if_neg hp2, if_neg hp2]
        exact ih

theorem lookupCell_append_right {st : Store} {id : StateId} {v : Option CppAny}
    (h : lookupCell st id = none) : lookupCell (st ++ [(id, v)]) id = some v := by
  induction st with
  | nil => simp [lookupCell]
  | cons p ps ih =>
    by_cases hp : p.1 = id
    · simp [lookupCell, hp] at h
    · simp only [List.cons_append, lookupCell, if_neg hp] at h ⊢
      exact ih h

theorem lookupCell_append_ne {st : Store} {id id2 : StateId} {v : Option CppAny}
    (hne : id2 ≠ id) : lookupCell (st ++ [(id, v)]) id2 = lookupCell st id2 := by
  induction st with
  | nil =>
    simp only [List.nil_append, lookupCell]
    rw [if_neg (fun h => hne h.symm)]
  | cons p ps ih =>
    by_cases hp : p.1 = id2
    · simp [lookupCell, hp]
    · simp only [List.cons_append, lookupCell, if_neg hp]
      exact ih

theorem lookupCell_assignCell_self (st : Store) (id : StateId) (v : Option CppAny) :
    lookupCell (assignCell st id v) id = some v := by
  unfold assignCell
  cases h : lookupCell st id with
  | none => exact lookupCell_append_right h
  | some w => exact lookupCell_setCell_self (by rw [h]; rfl)

theorem lookupCell_assignCell_ne {st : Store} {id id2 : StateId} {v : Option CppAny}
    (hne : id2 ≠ id) : lookupCell (assignCell st id v) id2 = lookupCell st id2 := by
  unfold assignCell
  cases h : lookupCell st id with
  | none => exact lookupCell_append_ne hne
  | some w => exact lookupCell_setCell_ne hne

/-- The cell fold performed by `registerComponent` leaves every id other than
the new component's output ids untouched. -/
theorem foldAssign_untouched (cid : ComponentId) (outs : List StateSpec)
    (st : Store) (sid : StateId)
    (h : ∀ s ∈ outs, (⟨cid, s.name⟩ : StateId) ≠ sid) :
    lookupCell (outs.foldl
      (fun s spec => assignCell s ⟨cid, spec.name⟩ spec.default_value) st) sid =
    lookupCell st sid := by
  induction outs generalizing st with
  | nil => rfl
  | cons s rest ih =>
    rw [List.foldl_cons]
    rw [ih _ (fun x hx => h x (List.mem_cons_of_mem s hx))]
    exact lookupCell_assignCell_ne fun heq =>
      (h s (List.mem_cons_self s rest)) heq.symm

/-- After the cell fold of `registerComponent`, the cell of a declared output
holds that output's declared default (unique names assumed, as interface
validation enforces). -/
theorem foldAssign_found (cid : ComponentId) (outs : List StateSpec)
    (st : Store) (sid : StateId) (spec : StateSpec)
    (hcomp : sid.component = cid)
    (hnodup : (outs.map (fun s => s.name)).Nodup)
    (hfind : outs.find? (fun s => s.name == sid.name) = some spec) :
    lookupCell (outs.foldl
      (fun s spec => assignCell s ⟨cid, spec.name⟩ spec.default_value) st) sid =
    some spec.default_value := by
  induction outs generalizing st with
  | nil => simp [List.find?] at hfind
  | cons s rest ih =>
    rw [List.map_cons, List.nodup_cons] at hnodup
    rw [List.foldl_cons]
    by_cases hname : s.name = sid.name
    · have hspec : spec = s := by
        rw [List.find?_cons_of_pos _ (by simp [hname])] at hfind
        exact (Option.some.injEq _ _ ▸ hfind).symm
      subst hspec
      have hsid : (⟨cid, spec.name⟩ : StateId) = sid := by
        cases sid
        simp only [StateId.mk.injEq]
        exact ⟨hcomp.symm, hname⟩
      rw [foldAssign_untouched]
      · rw [hsid]
        exact lookupCell_assignCell_self st sid spec.default_value
      · intro x hx heq
        apply hnodup.1
        have : x.name = spec.name := by
          have h1 : x.name = sid.name := congrArg StateId.name heq
          rw [h1, ← hname]
        exact this ▸ List.mem_map.mpr ⟨x, hx, rfl⟩
    · rw [List.find?_cons_of_neg _ (by simp [hname])] at hfind
      exact ih _ hnodup.2 hfind

theorem isRegistered_iff {m : Manager} {id : ComponentId} :
    isRegistered m id = true ↔ ∃ rc ∈ m.components, rc.comp.id = id := by
  simp [isRegistered, findComp, List.find?_isSome]

theorem findComp_append (comps : List RegisteredComponent) (rc : RegisteredComponent)
    (id : ComponentId) :
    findComp (comps ++ [rc]) id =
      (findComp comps id).or (if rc.comp.id = id then some rc else none) := by
  unfold findComp
  rw [List.find?_append]
  congr 1
  by_cases h : rc.comp.id = id
  · rw [List.find?_cons_of_pos _ (by simp [h])]
    rw [if_pos h]
  · rw [List.find?_cons_of_neg _ (by simp [h])]
    rw [if_neg h]
    rfl

theorem findComp_none_iff {comps : List RegisteredComponent} {id : ComponentId} :
    findComp comps id = none ↔ ∀ rc ∈ comps, rc.comp.id ≠ id := by
  unfold findComp
  rw [List.find?_eq_none]
  constructor
  · intro h rc hrc
    simpa using h rc hrc
  · intro h rc hrc
    simpa using h rc hrc

theorem outputs_names_nodup {c : Component} (h : interfaceOk c = true) :
    ((outputsOf c).map (fun s => s.name)).Nodup := by
  unfold interfaceOk at h
  simp only [Bool.and_eq_true] at h
  have hnd : (c.stateSpecs.map (fun s => s.name)).Nodup := of_decide_eq_true h.1.1.2
  exact hnd.sublist (List.Sublist.map _ (List.filter_sublist _))

/-- Invariant of every reachable manager together with the log of states
successfully written so far: registered ids are unique, a cell exists exactly
for the declared outputs, and a cell holds the empty any exactly when its
output was never written and declares no default. -/
structure ManagerInv (m : Manager) (log : List StateId) : Prop where
  comp_nodup : (m.components.map (fun rc => rc.comp.id)).Nodup
  cell_decl : ∀ sid : StateId, (lookupCell m.states sid).isSome = true ↔ declaredOutput m sid
  cell_empty : ∀ sid : StateId, lookupCell m.states sid = some none ↔
    (declaredOutput m sid ∧ sid ∉ log ∧ declaredDefault m sid = none)
  log_decl : ∀ sid ∈ log, declaredOutput m sid

theorem managerInv_init : ManagerInv emptyManager [] := by
  refine ⟨List.nodup_nil, ?_, ?_, ?_⟩
  · intro sid
    simp [emptyManager, lookupCell, declaredOutput]
  · intro sid
    simp [emptyManager, lookupCell, declaredOutput]
  · intro sid h
    cases h

theorem managerInv_register {m : Manager} {log : List StateId} (inv : ManagerInv m log)
    {c : Component} {p : Int} {m2 : Manager}
    (h : registerComponent m c p = Except.ok m2) : ManagerInv m2 log := by
  unfold registerComponent at h
  split at h
  · cases h
  · split at h
    · cases h
    · next hreg hiok =>
      have hfresh : ∀ rc ∈ m.components, rc.comp.id ≠ c.id := by
        intro rc hrc heq
        exact hreg (isRegistered_iff.mpr ⟨rc, hrc, heq⟩)
      have hok : interfaceOk c = true := by
        cases hx : interfaceOk c with
        | true => rfl
        | false => rw [hx] at hiok; simp at hiok
      have honodup := outputs_names_nodup hok
      cases h
      have hdecl2 : ∀ sid : StateId, declaredOutput
          { components := m.components ++ [⟨c, p⟩],
            states := (outputsOf c).foldl
              (fun st spec => assignCell st ⟨c.id, spec.name⟩ spec.default_value) m.states,
            executionOrder := m.executionOrder,
            componentDependencies := m.componentDependencies ++ [(c.id, extractDeps (inputsOf c))],
            needsRevalidation := true } sid ↔
          (declaredOutput m sid ∨ (sid.component = c.id ∧
            sid.name ∈ (outputsOf c).map (fun s => s.name))) := by
        intro sid
        unfold declaredOutput
        constructor
        · rintro ⟨rc, hrc, hcomp, hname⟩
          rcases List.mem_append.mp hrc with hold | hnew
          · exact Or.inl ⟨rc, hold, hcomp, hname⟩
          · rw [List.mem_singleton] at hnew
            subst hnew
            exact Or.inr ⟨hcomp.symm, hname⟩
        · rintro (⟨rc, hold, hcomp, hname⟩ | ⟨hcomp, hname⟩)
          · exact ⟨rc, List.mem_append.mpr (Or.inl hold), hcomp, hname⟩
          · exact ⟨⟨c, p⟩, List.mem_append.mpr (Or.inr (List.mem_singleton_self _)),
              hcomp.symm, hname⟩
      constructor
      · rw [List.map_append]
        simp only [List.map_cons, List.map_nil]
        rw [List.nodup_append]
        refine ⟨inv.comp_nodup, List.nodup_singleton _, ?_⟩
        intro x hx
        obtain ⟨rc, hrc, hrceq⟩ := List.mem_map.mp hx
        simp only [List.mem_singleton]
        intro hxc
        exact hfresh rc hrc (hrceq.trans hxc)
      · intro sid
        rw [hdecl2 sid]
        by_cases hcomp : sid.component = c.id
        · have holddecl : ¬ declaredOutput m sid := by
            rintro ⟨rc, hrc, hrceq, -⟩
            exact hfresh rc hrc (hrceq.trans hcomp)
          have holdnone : lookupCell m.states sid = none := by
            cases hx : lookupCell m.states sid with
            | none => rfl
            | some w =>
              exact absurd ((inv.cell_decl sid).mp (by rw [hx]; rfl)) holddecl
          cases hfind : (outputsOf c).find? (fun s => s.name == sid.name) with
          | some spec =>
            rw [foldAssign_found c.id _ _ _ _ hcomp honodup hfind]
            simp only [Option.isSome_some, true_iff]
            refine Or.inr ⟨hcomp, ?_⟩
            have := List.mem_of_find?_eq_some hfind
            have hnm := List.find?_some hfind
            rw [beq_iff_eq] at hnm
            exact hnm ▸ List.mem_map.mpr ⟨spec, this, rfl⟩
          | none =>
            rw [foldAssign_untouched]
            · rw [holdnone]
              simp only [Option.isSome_none, Bool.false_eq_true, false_iff]
              rintro (hd | ⟨-, hname⟩)
              · exact holddecl hd
              · obtain ⟨s, hs, hsname⟩ := List.mem_map.mp hname
                have := List.find?_eq_none.mp hfind s hs
                simp [hsname] at this
            · intro s hs heq
              have := List.find?_eq_none.mp hfind s hs
              have hn : s.name = sid.name := by
                have := congrArg StateId.name heq
                simpa using this
              simp [hn] at this
        · rw [foldAssign_untouched]
          · rw [inv.cell_decl sid]
            constructor
            · exact Or.inl
            · rintro (hd | ⟨hc, -⟩)
              · exact hd
              · exact absurd hc hcomp
          · intro s hs heq
            exact hcomp (by rw [← heq])
      · intro sid
        rw [hdecl2 sid]
        by_cases hcomp : sid.component = c.id
        · have holddecl : ¬ declaredOutput m sid := by
            rintro ⟨rc, hrc, hrceq, -⟩
            exact hfresh rc hrc (hrceq.trans hcomp)
          have hnotlog : sid ∉ log := fun hl => holddecl (inv.log_decl sid hl)
          have hfcnew : findComp (m.components ++ [⟨c, p⟩]) sid.component = some ⟨c, p⟩ := by
            rw [findComp_append, findComp_none_iff.mpr
              (fun rc hrc heq => hfresh rc hrc (heq.trans hcomp)), Option.none_or,
              if_pos hcomp.symm]
          cases hfind : (outputsOf c).find? (fun s => s.name == sid.name) with
          | some spec =>
            rw [foldAssign_found c.id _ _ _ _ hcomp honodup hfind]
            have hnm := List.find?_some hfind
            rw [beq_iff_eq] at hnm
            have hmem : sid.name ∈ (outputsOf c).map (fun s => s.name) :=
              hnm ▸ List.mem_map.mpr ⟨spec, List.mem_of_find?_eq_some hfind, rfl⟩
            have hdd : declaredDefault
                { components := m.components ++ [⟨c, p⟩],
                  states := (outputsOf c).foldl
                    (fun st spec => assignCell st ⟨c.id, spec.name⟩ spec.default_value) m.states,
                  executionOrder := m.executionOrder,
                  componentDependencies := m.componentDependencies ++ [(c.id, extractDeps (inputsOf c))],
                  needsRevalidation := true } sid = spec.default_value := by
              simp only [declaredDefault, hfcnew, hfind]
            rw [hdd]
            constructor
            · intro hv
              have : spec.default_value = none := by
                cases hdv : spec.default_value with
                | none => rfl
                | some w => rw [hdv] at hv; cases hv
              exact ⟨Or.inr ⟨hcomp, hmem⟩, hnotlog, this⟩
            · rintro ⟨-, -, hdef⟩
              rw [hdef]
          | none =>
            have holdnone : lookupCell m.states sid = none := by
              cases hx : lookupCell m.states sid with
              | none => rfl
              | some w =>
                exact absurd ((inv.cell_decl sid).mp (by rw [hx]; rfl)) holddecl
            rw [foldAssign_untouched]
            · rw [holdnone]
              constructor
              · intro hx
                cases hx
              · rintro ⟨hd | ⟨-, hname⟩, -, -⟩
                · exact absurd hd holddecl
                · obtain ⟨s, hs, hsname⟩ := List.mem_map.mp hname
                  have := List.find?_eq_none.mp hfind s hs
                  simp [hsname] at this
            · intro s hs heq
              have := List.find?_eq_none.mp hfind s hs
              have hn : s.name = sid.name := by
                have := congrArg StateId.name heq
                simpa using this
              simp [hn] at this
        · rw [foldAssign_untouched]
          · have hfc : findComp (m.components ++ [⟨c, p⟩]) sid.component =
                findComp m.components sid.component := by
              rw [findComp_append, if_neg (fun heq => hcomp heq.symm)]
              cases findComp m.components sid.component <;> rfl
            have hdd : declaredDefault
                { components := m.components ++ [⟨c, p⟩],
                  states := (outputsOf c).foldl
                    (fun st spec => assignCell st ⟨c.id, spec.name⟩ spec.default_value) m.states,
                  executionOrder := m.executionOrder,
                  componentDependencies := m.componentDependencies ++ [(c.id, extractDeps (inputsOf c))],
                  needsRevalidation := true } sid = declaredDefault m sid := by
              unfold declaredDefault
              rw [hfc]
            rw [hdd, inv.cell_empty sid]
            constructor
            · rintro ⟨hd, hl, he⟩
              exact ⟨Or.inl hd, hl, he⟩
            · rintro ⟨hd | ⟨hc, -⟩, hl, he⟩
              · exact ⟨hd, hl, he⟩
              · exact absurd hc hcomp
          · intro s hs heq
            exact hcomp (by rw [← heq])
      · intro sid hl
        rw [hdecl2 sid]
        exact Or.inl (inv.log_decl sid hl)

theorem managerInv_runOp {m : Manager} {log : List StateId} (inv : ManagerInv m log)
    (op : Op) : ManagerInv (runOp m op).1 (log ++ (runOp m op).2) := by
  cases op with
  | register c p =>
    simp only [runOp]
    cases hreg : registerComponent m c p with
    | error e => simpa using inv
    | ok m1 =>
      simp only [List.append_nil]
      exact managerInv_register inv hreg
  | set id v =>
    simp only [runOp]
    cases hset : setStateImpl m.states id v with
    | error e => simpa using inv
    | ok st1 =>
      unfold setStateImpl at hset
      cases hcell : lookupCell m.states id with
      | none => rw [hcell] at hset; cases hset
      | some w =>
        rw [hcell] at hset
        have hst1 : st1 = setCell m.states id (some v) := by
          cases hset
          rfl
        subst hst1
        have hdecl_id : declaredOutput m id :=
          (inv.cell_decl id).mp (by rw [hcell]; rfl)
        have hdecl_same : ∀ sid, declaredOutput { m with states := setCell m.states id (some v) } sid ↔
            declaredOutput m sid := by
          intro sid
          unfold declaredOutput
          exact Iff.rfl
        have hdd_same : ∀ sid, declaredDefault { m with states := setCell m.states id (some v) } sid =
            declaredDefault m sid := by
          intro sid
          unfold declaredDefault
          rfl
        constructor
        · exact inv.comp_nodup
        · intro sid
          rw [hdecl_same]
          by_cases hsid : sid = id
          · subst hsid
            rw [lookupCell_setCell_self (by rw [hcell]; rfl)]
            simp only [Option.isSome_some, true_iff]
            exact hdecl_id
          · rw [lookupCell_setCell_ne hsid]
            exact inv.cell_decl sid
        · intro sid
          rw [hdecl_same, hdd_same]
          by_cases hsid : sid = id
          · subst hsid
            rw [lookupCell_setCell_self (by rw [hcell]; rfl)]
            constructor
            · intro hx
              cases hx
            · rintro ⟨-, hl, -⟩
              exact absurd (List.mem_append.mpr (Or.inr (List.mem_singleton_self sid))) hl
          · rw [lookupCell_setCell_ne hsid]
            rw [inv.cell_empty sid]
            constructor
            · rintro ⟨hd, hl, he⟩
              refine ⟨hd, ?_, he⟩
              intro hmem
              rcases List.mem_append.mp hmem with h | h
              · exact hl h
              · rw [List.mem_singleton] at h
                exact hsid h
            · rintro ⟨hd, hl, he⟩
              exact ⟨hd, fun hm => hl (List.mem_append.mpr (Or.inl hm)), he⟩
        · intro sid hl
          rw [hdecl_same]
          rcases List.mem_append.mp hl with h | h
          · exact inv.log_decl sid h
          · rw [List.mem_singleton] at h
            subst h
            exact hdecl_id

theorem managerInv_runOps {m : Manager} {log : List StateId} (inv : ManagerInv m log)
    (ops : List Op) : ManagerInv (runOps m log ops).1 (runOps m log ops).2 := by
  induction ops generalizing m log with
  | nil => exact inv
  | cons op ops ih =>
    simp only [runOps]
    exact ih (managerInv_runOp inv op)


theorem setStateImpl_ok {st st2 : Store} {id : StateId} {v : CppAny}
    (h : setStateImpl st id v = Except.ok st2) :
    st2 = setCell st id (some v) ∧ (lookupCell st id).isSome = true := by
  unfold setStateImpl at h
  cases hc : lookupCell st id with
  | none =>
    rw [hc] at h
    cases h
  | some w =>
    rw [hc] at h
    cases h
    exact ⟨rfl, rfl⟩

theorem applyWrites_lookup_ne {cid : ComponentId} {ws : List (String × CppAny)}
    {st st2 : Store} (h : applyWrites cid ws st = Except.ok st2)
    {sid : StateId} (hne : sid.component ≠ cid) :
    lookupCell st2 sid = lookupCell st sid := by
  induction ws generalizing st with
  | nil =>
    cases h
    rfl
  | cons w ws ih =>
    cases w with
    | mk n v =>
      simp only [applyWrites] at h
      cases hset : setStateImpl st ⟨cid, n⟩ v with
      | error e =>
        rw [hset] at h
        cases h
      | ok st1 =>
        rw [hset] at h
        obtain ⟨hst1, -⟩ := setStateImpl_ok hset
        subst hst1
        rw [ih h, lookupCell_setCell_ne (fun heq => hne (by rw [heq]))]

theorem componentUpdate_lookup_ne {c : Component} {st st2 : Store}
    (h : componentUpdate c st = Except.ok st2) {sid : StateId}
    (hne : sid.component ≠ c.id) : lookupCell st2 sid = lookupCell st sid :=
  applyWrites_lookup_ne h hne

theorem runUpdates_append (comps : List RegisteredComponent)
    (l1 l2 : List ComponentId) (st : Store) :
    runUpdates comps (l1 ++ l2) st =
      match runUpdates comps l1 st with
      | Except.ok st1 => runUpdates comps l2 st1
      | Except.error e => Except.error e := by
  induction l1 generalizing st with
  | nil => rfl
  | cons id rest ih =>
    simp only [List.cons_append, runUpdates]
    cases hfc : findComp comps id with
    | none => exact ih st
    | some rc =>
      cases hcu : componentUpdate rc.comp st with
      | error e => simp [hcu]
      | ok st1 =>
        simp only [hcu]
        exact ih st1

theorem runUpdates_lookup_notin {comps : List RegisteredComponent}
    {ids : List ComponentId} {st st2 : Store}
    (h : runUpdates comps ids st = Except.ok st2) {sid : StateId}
    (hnot : sid.component ∉ ids) : lookupCell st2 sid = lookupCell st sid := by
  induction ids generalizing st with
  | nil =>
    cases h
    rfl
  | cons id rest ih =>
    simp only [runUpdates] at h
    cases hfc : findComp comps id with
    | none =>
      simp only [hfc] at h
      exact ih h (fun hm => hnot (List.mem_cons_of_mem _ hm))
    | some rc =>
      simp only [hfc] at h
      cases hcu : componentUpdate rc.comp st with
      | error e =>
        simp only [hcu] at h
        cases h
      | ok st1 =>
        simp only [hcu] at h
        have hrcid : rc.comp.id = id := by
          have := List.find?_some hfc
          simpa using this
        have h1 : lookupCell st1 sid = lookupCell st sid :=
          componentUpdate_lookup_ne hcu
            (by rw [hrcid]; exact fun heq => hnot (heq ▸ List.mem_cons_self id rest))
        rw [ih h (fun hm => hnot (List.mem_cons_of_mem _ hm)), h1]

theorem runUpdates_take_ok {comps : List RegisteredComponent}
    {ids : List ComponentId} {st stF : Store}
    (h : runUpdates comps ids st = Except.ok stF) (k : Nat) :
    ∃ stk, runUpdates comps (ids.take k) st = Except.ok stk := by
  have hsplit : ids = ids.take k ++ ids.drop k := (List.take_append_drop k ids).symm
  rw [hsplit, runUpdates_append] at h
  cases hx : runUpdates comps (ids.take k) st with
  | error e =>
    rw [hx] at h
    cases h
  | ok stk => exact ⟨stk, rfl⟩

theorem performSort_ok_spec {entries : List RegEntry}
    (hnd : (entries.map RegEntry.id).Nodup)
    (hclosed : ClosedGraph entries) (hacyc : Acyclic entries) :
    ∃ order, performPriorityAwareTopologicalSort entries = Except.ok order ∧
      order.Perm (entries.map RegEntry.id) ∧
      order.Nodup ∧
      ∀ e ∈ entries, ∀ d ∈ e.deps, ∀ (k : Nat) (hk : k < order.length),
        order.get ⟨k, hk⟩ = e.id → d ∈ order.take k := by
  obtain ⟨inv2, hel, -⟩ :=
    kahnGo_master hnd entries.length entries [] (kahnInv_init entries) (le_refl _)
  have hremnil : (kahnGo entries.length entries []).2 = [] :=
    kahn_stall_empty hnd hclosed hacyc inv2 hel
  refine ⟨(kahnGo entries.length entries []).1, ?_, ?_, inv2.acc_nodup, ?_⟩
  · simp [performPriorityAwareTopologicalSort, hremnil]
  · have hlen : (kahnGo entries.length entries []).1.length = entries.length := by
      have := inv2.acc_len
      rw [hremnil] at this
      simpa using this
    have hsub : (kahnGo entries.length entries []).1 ⊆ entries.map RegEntry.id :=
      fun x hx => inv2.acc_sub x hx
    exact (inv2.acc_nodup.subperm hsub).perm_of_length_le
      (by rw [hlen, List.length_map])
  · intro e he d hd k hk hget
    exact inv2.acc_sound k hk e he hget d hd

theorem performSort_cycle_spec {entries : List RegEntry}
    (hnd : (entries.map RegEntry.id).Nodup) (hcyc : HasCycle entries) :
    ∃ f : SortFailure, performPriorityAwareTopologicalSort entries = Except.error f ∧
      f.producedOrder.length < entries.length ∧
      (∀ x : ComponentId, x ∈ f.cyclicComponents ↔
        (x ∈ entries.map RegEntry.id ∧ x ∉ f.producedOrder)) := by
  obtain ⟨inv2, hel, hpres⟩ :=
    kahnGo_master hnd entries.length entries [] (kahnInv_init entries) (le_refl _)
  obtain ⟨w, hw⟩ := hcyc
  have hwnot : ∀ x ∈ w, x ∉ (kahnGo entries.length entries []).1 :=
    hpres w hw (fun x hx h => by cases h)
  obtain ⟨x0, hx0⟩ : ∃ x0, x0 ∈ w := by
    cases hwl : w with
    | nil => exact absurd hwl hw.1
    | cons y ys => exact ⟨y, hwl ▸ List.mem_cons_self y ys⟩
  obtain ⟨d0, -, e0, he0, he0id, -⟩ := hw.2 x0 hx0
  have he0rem : e0 ∈ (kahnGo entries.length entries []).2 := by
    rw [inv2.rem_eq]
    exact List.mem_filter.mpr ⟨he0, by simp [he0id, hwnot x0 hx0]⟩
  have hremne : (kahnGo entries.length entries []).2 ≠ [] := by
    intro h
    rw [h] at he0rem
    cases he0rem
  refine ⟨⟨(kahnGo entries.length entries []).1,
    (kahnGo entries.length entries []).2.map RegEntry.id⟩, ?_, ?_, ?_⟩
  · simp only [performPriorityAwareTopologicalSort]
    rw [if_neg (by simpa [List.isEmpty_iff] using hremne)]
  · show (kahnGo entries.length entries []).1.length < entries.length
    have := inv2.acc_len
    have hpos : 0 < (kahnGo entries.length entries []).2.length :=
      List.length_pos.mpr hremne
    omega
  · intro x
    simp only [List.mem_map]
    constructor
    · rintro ⟨e, herem, heid⟩
      have hee : e ∈ entries := by
        rw [inv2.rem_eq] at herem
        exact List.mem_of_mem_filter herem
      have hnotacc : e.id ∉ (kahnGo entries.length entries []).1 := by
        rw [inv2.rem_eq] at herem
        have := List.of_mem_filter herem
        simpa using this
      refine ⟨?_, ?_⟩
      · rw [← heid]
        exact ⟨e, hee, rfl⟩
      · show x ∉ (kahnGo entries.length entries []).1
        rw [← heid]
        exact hnotacc
    · rintro ⟨hxent, hxnot⟩
      obtain ⟨e, hee, heid⟩ := hxent
      refine ⟨e, ?_, heid⟩
      rw [inv2.rem_eq]
      exact List.mem_filter.mpr ⟨hee, by simp [heid, hxnot]⟩

theorem managerEntries_ids (m : Manager) :
    (managerEntries m).map RegEntry.id = m.components.map (fun rc => rc.comp.id) := by
  unfold managerEntries
  rw [List.map_map]
  rfl

theorem closed_of_depsRegistered {m : Manager} (hdeps : DepsRegistered m) :
    ClosedGraph (managerEntries m) := by
  intro e he d hd
  obtain ⟨rc, hrc, hee⟩ := List.mem_map.mp he
  subst hee
  simp only at hd
  unfold depsOf at hd
  cases hfind : m.componentDependencies.find? (fun p => p.1 == rc.comp.id) with
  | none =>
    rw [hfind] at hd
    cases hd
  | some p =>
    rw [hfind] at hd
    have hp := List.mem_of_find?_eq_some hfind
    have hreg := hdeps p hp d hd
    rw [isRegistered_iff] at hreg
    obtain ⟨rc2, hrc2, heq⟩ := hreg
    rw [managerEntries_ids]
    exact List.mem_map.mpr ⟨rc2, hrc2, heq⟩

theorem validateCompDeps_ok_of {m : Manager} (hdeps : DepsRegistered m) :
    validateComponentDependencies m = Except.ok () := by
  unfold validateComponentDependencies
  have herr : (m.componentDependencies.flatMap (fun p =>
      (p.2.filter (fun d => !isRegistered m d)).map (fun d => (p.1, d)))) = [] := by
    apply List.eq_nil_iff_forall_not_mem.mpr
    intro x hx
    rw [List.mem_flatMap] at hx
    obtain ⟨p, hp, hxp⟩ := hx
    obtain ⟨d, hd, -⟩ := List.mem_map.mp hxp
    have := List.mem_filter.mp hd
    rw [hdeps p hp d this.1] at this
    simpa using this.2
  rw [herr]
  rfl

theorem validateAndSort_ok {m : Manager}
    (hnd : (m.components.map (fun rc => rc.comp.id)).Nodup)
    (hdeps : DepsRegistered m)
    (hacyc : Acyclic (managerEntries m)) (hdirty : m.needsRevalidation = true) :
    ∃ order,
      validateAndSortComponents m =
        ⟨{ m with executionOrder := order, needsRevalidation := false },
          Except.ok (), order⟩ ∧
      order.Perm (m.components.map (fun rc => rc.comp.id)) ∧
      (∀ e ∈ managerEntries m, ∀ d ∈ e.deps, ∀ (k : Nat) (hk : k < order.length),
        order.get ⟨k, hk⟩ = e.id → d ∈ order.take k) := by
  have hnd2 : ((managerEntries m).map RegEntry.id).Nodup := by
    rw [managerEntries_ids]
    exact hnd
  obtain ⟨order, hsort, hperm, hnodup, hsound⟩ :=
    performSort_ok_spec hnd2 (closed_of_depsRegistered hdeps) hacyc
  rw [managerEntries_ids] at hperm
  have hregall : ∀ x ∈ order, isRegistered m x = true := by
    intro x hx
    have := hperm.subset hx
    obtain ⟨rc, hrc, heq⟩ := List.mem_map.mp this
    exact isRegistered_iff.mpr ⟨rc, hrc, heq⟩
  refine ⟨order, ?_, hperm, hsound⟩
  unfold validateAndSortComponents
  rw [if_neg (by rw [hdirty]; simp)]
  simp only [hsort]
  have hfilter : order.filter (fun id =>
      !isRegistered { m with executionOrder := order } id) = [] := by
    apply List.filter_eq_nil_iff.mpr
    intro a ha
    have : isRegistered { m with executionOrder := order } a = isRegistered m a := rfl
    rw [this, hregall a ha]
    simp
  rw [hfilter]
  simp only [List.isEmpty_nil, Bool.not_false, Bool.true_eq_false, if_false]
  have hvcd : validateComponentDependencies { m with executionOrder := order } =
      Except.ok () := by
    apply validateCompDeps_ok_of
    intro p hp d hd
    have : isRegistered { m with executionOrder := order } d = isRegistered m d := rfl
    rw [this]
    exact hdeps p hp d hd
  rw [hvcd]
  have hfilter2 : order.filter (fun id =>
      isRegistered { m with executionOrder := order } id) = order := by
    apply List.filter_eq_self.mpr
    intro a ha
    have : isRegistered { m with executionOrder := order } a = isRegistered m a := rfl
    rw [this]
    exact hregall a ha
  rw [hfilter2]
  simp

theorem mem_take_index {l : List ComponentId} {k : Nat} {d : ComponentId}
    (h : d ∈ l.take k) :
    ∃ (j : Nat) (hj : j < l.length), j < k ∧ l.get ⟨j, hj⟩ = d := by
  obtain ⟨i, hi⟩ := List.mem_iff_get.mp h
  have hlen : (l.take k).length = min k l.length := List.length_take k l
  have hik : (i : Nat) < k := lt_of_lt_of_le i.isLt (by omega)
  have hil : (i : Nat) < l.length := lt_of_lt_of_le i.isLt (by omega)
  refine ⟨i, hil, hik, ?_⟩
  rw [← hi]
  simp only [List.get_eq_getElem]
  exact List.getElem_take' l hil hik

theorem get_mem_take {l : List ComponentId} {j n : Nat} (hj : j < l.length)
    (hjn : j < n) : l.get ⟨j, hj⟩ ∈ l.take n := by
  have := List.getElem_take' l hj hjn
  simp only [List.get_eq_getElem]
  rw [this]
  exact List.getElem_mem ..

theorem get_mem_drop {l : List ComponentId} {i j : Nat} (hj : j < l.length)
    (hij : i ≤ j) : l.get ⟨j, hj⟩ ∈ l.drop i := by
  have hb : j - i < (l.drop i).length := by
    rw [List.length_drop]
    omega
  have : (l.drop i).get ⟨j - i, hb⟩ = l.get ⟨j, hj⟩ := by
    simp only [List.get_eq_getElem, List.getElem_drop]
    congr 1
    omega
  rw [← this]
  exact List.get_mem ..

/-- Claim C1, counterexample: the dependency graph of `mDangling` (one
registered component `C1A` whose required input is sourced from the
unregistered component `Z`) is acyclic — the edge `C1A → Z` admits the rank
`Z ↦ 0, _ ↦ 1` — yet `validateAndSortComponents` raises `DependencyError`
(the `Z`-edge can never leave the in-degree of `C1A`), so an acyclic graph
does not suffice for the sort to succeed. -/
theorem claim_C1_counterexample :
    Acyclic (managerEntries mDangling) ∧
    (validateAndSortComponents mDangling).result =
      Except.error (GncError.dependencyCycle ⟨[], [⟨1, "C1A"⟩]⟩) := by
  constructor
  · exact ⟨fun id => if id = ⟨1, "Z"⟩ then 0 else 1, by decide⟩
  · rfl

/-- Claim C1, amended: for every registered component set with unique ids
whose dependency graph is acyclic AND whose every dependency edge targets a
registered component, `validateAndSortComponents` succeeds without raising,
and the computed execution order is a total order over all registered
ComponentIds (a permutation of them) in which, for every dependency edge
A → B derived from A's required sourced inputs, B precedes A. -/
theorem claim_C1_amended {m : Manager}
    (hnd : (m.components.map (fun rc => rc.comp.id)).Nodup)
    (hdeps : DepsRegistered m)
    (hacyc : Acyclic (managerEntries m)) (hdirty : m.needsRevalidation = true) :
    ∃ order,
      (validateAndSortComponents m).result = Except.ok () ∧
      (validateAndSortComponents m).manager.executionOrder = order ∧
      order.Perm (m.components.map (fun rc => rc.comp.id)) ∧
      (∀ e ∈ managerEntries m, ∀ d ∈ e.deps,
        ∀ (j k : Nat) (hj : j < order.length) (hk : k < order.length),
        order.get ⟨k, hk⟩ = e.id → order.get ⟨j, hj⟩ = d → j < k) := by
  obtain ⟨order, houtcome, hperm, hsound⟩ := validateAndSort_ok hnd hdeps hacyc hdirty
  have hnodup : order.Nodup := hperm.nodup_iff.mpr hnd
  refine ⟨order, by rw [houtcome], by rw [houtcome], hperm, ?_⟩
  intro e he d hd j k hj hk hke hjd
  have hdtake : d ∈ order.take k := hsound e he d hd k hk hke
  obtain ⟨j2, hj2l, hj2k, hj2get⟩ := mem_take_index hdtake
  have : (⟨j2, hj2l⟩ : Fin order.length) = ⟨j, hj⟩ :=
    hnodup.get_inj_iff.mp (by rw [hj2get, hjd])
  have hj2j : j2 = j := by
    have := congrArg Fin.val this
    simpa using this
  omega

/-- Claim C1, amended, witness: the Sensor→Filter chain satisfies the
hypotheses and the sort succeeds on it. -/
theorem claim_C1_amended_witness :
    (mChain.components.map (fun rc => rc.comp.id)).Nodup ∧
    DepsRegistered mChain ∧ Acyclic (managerEntries mChain) ∧
    mChain.needsRevalidation = true ∧
    ∃ order,
      (validateAndSortComponents mChain).result = Except.ok () ∧
      (validateAndSortComponents mChain).manager.executionOrder = order ∧
      order.Perm (mChain.components.map (fun rc => rc.comp.id)) ∧
      (∀ e ∈ managerEntries mChain, ∀ d ∈ e.deps,
        ∀ (j k : Nat) (hj : j < order.length) (hk : k < order.length),
        order.get ⟨k, hk⟩ = e.id → order.get ⟨j, hj⟩ = d → j < k) :=
  ⟨by decide, by decide,
    ⟨fun id => if id = ⟨1, "Sensor"⟩ then 0 else 1, by decide⟩, rfl,
    claim_C1_amended (by decide) (by decide)
      ⟨fun id => if id = ⟨1, "Sensor"⟩ then 0 else 1, by decide⟩ rfl⟩

/-- Claim C2: whenever the dependency graph has a cycle, the Kahn loop stalls
and produces an order shorter than the registered-component count, and the
raised `DependencyError` diagnostics name exactly the components whose
in-degree never reached zero (a component's in-degree reaches zero precisely
when it is appended to the order, so these are the registered components
missing from the partial order).  In particular, for the two components of
`mMutual`, each declaring a required input sourced from the other, the error
names both. -/
theorem claim_C2 :
    (∀ (entries : List RegEntry), (entries.map RegEntry.id).Nodup →
      HasCycle entries →
      ∃ f : SortFailure,
        performPriorityAwareTopologicalSort entries = Except.error f ∧
        f.producedOrder.length < entries.length ∧
        (∀ x, x ∈ f.cyclicComponents ↔
          (x ∈ entries.map RegEntry.id ∧ x ∉ f.producedOrder))) ∧
    ∃ f : SortFailure,
      (validateAndSortComponents mMutual).result =
        Except.error (GncError.dependencyCycle f) ∧
      (⟨1, "A"⟩ : ComponentId) ∈ f.cyclicComponents ∧
      (⟨1, "B"⟩ : ComponentId) ∈ f.cyclicComponents := by
  constructor
  · intro entries hnd hcyc
    exact performSort_cycle_spec hnd hcyc
  · exact ⟨⟨[], [⟨1, "A"⟩, ⟨1, "B"⟩]⟩, rfl, by decide, by decide⟩

/-- Claim C2, witness: the mutual pair's entries have a cycle, and the sort
reports both components. -/
theorem claim_C2_witness :
    ∃ f : SortFailure,
      performPriorityAwareTopologicalSort (managerEntries mMutual) =
        Except.error f ∧
      f.producedOrder.length < (managerEntries mMutual).length ∧
      (∀ x, x ∈ f.cyclicComponents ↔
        (x ∈ (managerEntries mMutual).map RegEntry.id ∧ x ∉ f.producedOrder)) :=
  claim_C2.1 (managerEntries mMutual) (by decide)
    ⟨[⟨1, "A"⟩, ⟨1, "B"⟩], by decide, by decide⟩

/-- Claim C3, counterexample: in `mC3`, component `C3A` declares a required
input of type tag `double` sourced from state `x` of the registered component
`C3B`, but `C3B` declares no output named `x` (its only output is `y` of type
tag `int`).  The claimed connection-validation pass would collect this
violation and raise `ConfigurationError`; instead `validateAndSortComponents`
succeeds — neither output existence nor type compatibility is ever checked. -/
theorem claim_C3_counterexample :
    (validateAndSortComponents mC3).result = Except.ok () ∧
    (∃ s ∈ inputsOf compC3A,
      s.source = some ⟨⟨1, "C3B"⟩, "x"⟩ ∧ s.required = true ∧ s.type = "double") ∧
    isRegistered mC3 ⟨1, "C3B"⟩ = true ∧
    ¬ declaredOutput mC3 ⟨⟨1, "C3B"⟩, "x"⟩ := by
  exact ⟨rfl, by decide, rfl, by decide⟩

/-- Claim C3, amended: the pass that runs after a successful sort and before
any `initialize()` is `validateComponentDependencies`; it checks, for every
stored dependency (derived from the required sourced inputs), only that the
source *component* is registered, collecting all violations (one per
(dependent, missing dependency) pair) before raising a single
`ConfigurationError`.  It succeeds precisely when every dependency names a
registered component; the declared source state's existence and its type are
not validated. -/
theorem claim_C3_amended (m : Manager) :
    (validateComponentDependencies m = Except.ok () ↔ DepsRegistered m) ∧
    (∀ errs, validateComponentDependencies m =
        Except.error (GncError.dependencyValidationFailed errs) →
      ∀ cid d, (cid, d) ∈ errs ↔
        ∃ p ∈ m.componentDependencies, p.1 = cid ∧ d ∈ p.2 ∧
          isRegistered m d = false) := by
  constructor
  · constructor
    · intro hok
      intro p hp d hd
      by_contra hreg
      have hfalse : isRegistered m d = false := by
        cases hx : isRegistered m d with
        | true => exact absurd hx hreg
        | false => rfl
      unfold validateComponentDependencies at hok
      simp only [] at hok
      split at hok
      · next hempty =>
        rw [List.isEmpty_iff] at hempty
        have : (p.1, d) ∈ m.componentDependencies.flatMap (fun p =>
            (p.2.filter (fun d => !isRegistered m d)).map (fun d => (p.1, d))) := by
          rw [List.mem_flatMap]
          exact ⟨p, hp, List.mem_map.mpr
            ⟨d, List.mem_filter.mpr ⟨hd, by simp [hfalse]⟩, rfl⟩⟩
        rw [hempty] at this
        cases this
      · cases hok
    · exact validateCompDeps_ok_of
  · intro errs herr cid d
    unfold validateComponentDependencies at herr
    simp only [] at herr
    split at herr
    · cases herr
    · have herrs : errs = m.componentDependencies.flatMap (fun p =>
          (p.2.filter (fun d => !isRegistered m d)).map (fun d => (p.1, d))) := by
        cases herr
        rfl
      subst herrs
      rw [List.mem_flatMap]
      constructor
      · rintro ⟨p, hp, hmem⟩
        obtain ⟨d2, hd2, heq⟩ := List.mem_map.mp hmem
        obtain ⟨hd2mem, hd2reg⟩ := List.mem_filter.mp hd2
        injection heq with h1 h2
        refine ⟨p, hp, h1, h2 ▸ hd2mem, ?_⟩
        rw [← h2]
        simpa using hd2reg
      · rintro ⟨p, hp, hcid, hd, hreg⟩
        refine ⟨p, hp, List.mem_map.mpr
          ⟨d, List.mem_filter.mpr ⟨hd, by simp [hreg]⟩, by rw [hcid]⟩⟩

/-- Claim C3, amended, witness: on `mDangling` the pass fails, collecting the
single violation (`C1A`, `Z`); on `mC3` it succeeds. -/
theorem claim_C3_amended_witness :
    (validateComponentDependencies mC3 = Except.ok () ↔ DepsRegistered mC3) ∧
    (((⟨1, "C1A"⟩, ⟨1, "Z"⟩) : ComponentId × ComponentId) ∈
        [((⟨1, "C1A"⟩, ⟨1, "Z"⟩) : ComponentId × ComponentId)] ↔
      ∃ p ∈ mDangling.componentDependencies, p.1 = ⟨1, "C1A"⟩ ∧
        (⟨1, "Z"⟩ : ComponentId) ∈ p.2 ∧ isRegistered mDangling ⟨1, "Z"⟩ = false) :=
  ⟨(claim_C3_amended mC3).1,
    (claim_C3_amended mDangling).2 [(⟨1, "C1A"⟩, ⟨1, "Z"⟩)] rfl ⟨1, "C1A"⟩ ⟨1, "Z"⟩⟩

/-- Claim C5: at every step of the scheduling loop, the appended component is
one of the eligible (in-degree-zero, unscheduled) components, and every other
eligible component either has strictly lower priority or has equal priority
and a name not smaller than the appended one's (ties among equal priorities
are broken towards the smaller name); in particular, of two dependency-free
components with priorities 10 and 20 the priority-20 one is ordered first. -/
theorem claim_C5 :
    (∀ (remaining : List RegEntry) (acc : List ComponentId) (c : RegEntry),
      pickBest (eligible remaining acc) = some c →
      c ∈ eligible remaining acc ∧
      ∀ e ∈ eligible remaining acc,
        e.priority < c.priority ∨
        (e.priority = c.priority ∧ nameLt e.id.name c.id.name = false)) ∧
    performPriorityAwareTopologicalSort entriesPrio =
      Except.ok [⟨1, "P20"⟩, ⟨1, "P10"⟩] := by
  constructor
  · intro remaining acc c hpick
    obtain ⟨hmem, hall⟩ := pickBest_spec hpick
    refine ⟨hmem, ?_⟩
    intro e he
    have hbe := hall e he
    unfold better at hbe
    split at hbe
    · next hp => exact Or.inr ⟨hp, hbe⟩
    · next hp =>
      rw [decide_eq_false_iff_not] at hbe
      omega
  · rfl

/-- Claim C5, witness: with both components ready, the priority-20 one is
popped first. -/
theorem claim_C5_witness :
    (⟨⟨1, "P20"⟩, [], 20⟩ : RegEntry) ∈ eligible entriesPrio [] ∧
    ∀ e ∈ eligible entriesPrio [],
      e.priority < (20 : Int) ∨
      (e.priority = 20 ∧ nameLt e.id.name "P20" = false) :=
  claim_C5.1 entriesPrio [] ⟨⟨1, "P20"⟩, [], 20⟩ rfl

/-- Claim C9, counterexample: the comparator ignores the `vehicleId`, so the
two components named `X` with equal priority under vehicles 1 and 2 are
comparator-equivalent; the produced order then follows container order, which
depends on the registration sequence: the two registration orders of the same
component set yield different execution orders. -/
theorem claim_C9_counterexample :
    entriesTieA.Perm entriesTieB ∧
    performPriorityAwareTopologicalSort entriesTieA ≠
      performPriorityAwareTopologicalSort entriesTieB := by
  constructor
  · decide
  · intro h
    rw [show performPriorityAwareTopologicalSort entriesTieA =
        Except.ok [⟨1, "X"⟩, ⟨2, "X"⟩] from rfl,
      show performPriorityAwareTopologicalSort entriesTieB =
        Except.ok [⟨2, "X"⟩, ⟨1, "X"⟩] from rfl] at h
    injection h with h
    exact absurd h (by decide)

/-- Claim C9, amended: the execution order is a deterministic function of the
registration sequence, and of the registered set alone whenever no two
distinct registered components are comparator-equivalent (share both priority
and name): permuting the registration sequence then leaves the computed order
unchanged. -/
theorem claim_C9_amended {l1 l2 : List RegEntry} (hperm : l1.Perm l2)
    (htot : ∀ a ∈ l1, ∀ b ∈ l1, a ≠ b →
      better a b = true ∨ better b a = true)
    {order : List ComponentId}
    (h1 : performPriorityAwareTopologicalSort l1 = Except.ok order) :
    performPriorityAwareTopologicalSort l2 = Except.ok order := by
  have hlen : l1.length = l2.length := hperm.length_eq
  obtain ⟨hfst, hsnd⟩ := kahnGo_perm l1.length l1 l2 [] hperm htot
  unfold performPriorityAwareTopologicalSort at h1 ⊢
  simp only [] at h1 ⊢
  rw [← hlen]
  split at h1
  · next hempty =>
    rw [List.isEmpty_iff] at hempty
    have hsnd2 : (kahnGo l1.length l2 []).2 = [] := by
      rw [hempty] at hsnd
      exact hsnd.symm.eq_nil
    rw [if_pos (by rw [hsnd2]; rfl)]
    rw [← hfst]
    exact h1
  · cases h1

/-- Claim C9, amended, witness: the two distinct-priority components produce
the same order from either registration sequence. -/
theorem claim_C9_amended_witness :
    performPriorityAwareTopologicalSort
      [⟨⟨1, "P20"⟩, [], 20⟩, ⟨⟨1, "P10"⟩, [], 10⟩] =
      Except.ok [⟨1, "P20"⟩, ⟨1, "P10"⟩] :=
  @claim_C9_amended entriesPrio [⟨⟨1, "P20"⟩, [], 20⟩, ⟨⟨1, "P10"⟩, [], 10⟩]
    (by decide) (by decide) [⟨1, "P20"⟩, ⟨1, "P10"⟩] rfl

/-- Claim C10, counterexample: in `mC10`, component `C6B` is registered after
the last schedule computation and the schedule is not recomputed before
teardown; the destructor walks only the cached execution order, so `C6B` is
released without ever being finalized, although it is registered. -/
theorem claim_C10_counterexample :
    isRegistered mC10 ⟨1, "C6B"⟩ = true ∧
    (⟨1, "C6B"⟩ : ComponentId) ∉ destructorFinalizeOrder mC10 := by
  exact ⟨rfl, by decide⟩

/-- Claim C10, amended: at teardown exactly the registered components present
in the last computed execution order are finalized — in exact reverse of that
order, and all finalize() calls happen before any component is released (the
destructor's finalization loop completes before the release loop starts); a
component registered after the last schedule computation is released without
being finalized. -/
theorem claim_C10_amended (m : Manager) :
    destructorFinalizeOrder m =
      (m.executionOrder.filter (fun id => isRegistered m id)).reverse ∧
    ∀ id, id ∈ destructorFinalizeOrder m ↔
      (id ∈ m.executionOrder ∧ isRegistered m id = true) := by
  constructor
  · unfold destructorFinalizeOrder
    exact List.filter_reverse _ _
  · intro id
    unfold destructorFinalizeOrder
    rw [List.mem_filter, List.mem_reverse]

/-- Claim C6, counterexample: after the first schedule computation initializes
`C6A`, registering `C6B` and recomputing invokes `initialize()` on *every*
component of the new execution order — `C6A` is initialized a second time,
contrary to the claim that only newly-added components are initialized. -/
theorem claim_C6_counterexample :
    soC6first.initEvents = [⟨1, "C6A"⟩] ∧
    soC6second.initEvents = [⟨1, "C6A"⟩, ⟨1, "C6B"⟩] ∧
    (soC6first.initEvents ++ soC6second.initEvents).count (⟨1, "C6A"⟩ : ComponentId) = 2 := by
  exact ⟨rfl, rfl, by decide⟩

/-- Claim C6, amended: a schedule recomputation on a dirty manager re-runs
validation and then invokes `initialize()` once on every registered component
in the new execution order — including components initialized by earlier
computations; the initialization events are exactly the new execution order,
a permutation of all registered ids. -/
theorem claim_C6_amended {m : Manager}
    (hnd : (m.components.map (fun rc => rc.comp.id)).Nodup)
    (hdeps : DepsRegistered m)
    (hacyc : Acyclic (managerEntries m)) (hdirty : m.needsRevalidation = true) :
    (validateAndSortComponents m).initEvents =
      (validateAndSortComponents m).manager.executionOrder ∧
    (validateAndSortComponents m).initEvents.Perm
      (m.components.map (fun rc => rc.comp.id)) := by
  obtain ⟨order, houtcome, hperm, -⟩ := validateAndSort_ok hnd hdeps hacyc hdirty
  rw [houtcome]
  exact ⟨rfl, hperm⟩

/-- Claim C6, amended, witness: the second computation of the mid-run
scenario initializes both components, `C6A` among them again. -/
theorem claim_C6_amended_witness :
    (validateAndSortComponents mC6second).initEvents =
      (validateAndSortComponents mC6second).manager.executionOrder ∧
    (validateAndSortComponents mC6second).initEvents.Perm
      (mC6second.components.map (fun rc => rc.comp.id)) :=
  claim_C6_amended (by decide) (by decide) ⟨fun _ => 0, by decide⟩ rfl

/-- Claim C4: within one update pass over the execution order (the loop of
`updateAll`), the store handed to the i-th component shows, for every state
owned by the component at position j, the current pass's value (the store as
of just after position j ran) when j < i, and the value from before the pass
(the previous step's value, or the initial default if the owner never wrote)
when j ≥ i.  Components write only their own states
(`ComponentBase::setState` targets the caller's own id), so the frame of
every other component is preserved. -/
theorem claim_C4 {comps : List RegisteredComponent} {order : List ComponentId}
    {st0 stF : Store} (hnd : order.Nodup)
    (hok : runUpdates comps order st0 = Except.ok stF)
    (i j : Nat) (hi : i ≤ order.length) (hj : j < order.length)
    (sid : StateId) (hown : sid.component = order.get ⟨j, hj⟩) :
    ∃ sti stj, runUpdates comps (order.take i) st0 = Except.ok sti ∧
      runUpdates comps (order.take (j + 1)) st0 = Except.ok stj ∧
      (j < i → lookupCell sti sid = lookupCell stj sid) ∧
      (i ≤ j → lookupCell sti sid = lookupCell st0 sid) := by
  obtain ⟨sti, hsti⟩ := runUpdates_take_ok hok i
  obtain ⟨stj, hstj⟩ := runUpdates_take_ok hok (j + 1)
  refine ⟨sti, stj, hsti, hstj, ?_, ?_⟩
  · intro hji
    have hsplit : order.take i =
        order.take (j + 1) ++ (order.drop (j + 1)).take (i - (j + 1)) := by
      rw [← List.take_add]
      congr 1
      omega
    rw [hsplit, runUpdates_append] at hsti
    simp only [hstj] at hsti
    have hmid : sid.component ∉ (order.drop (j + 1)).take (i - (j + 1)) := by
      intro hmem
      have hdropmem : sid.component ∈ order.drop (j + 1) :=
        List.take_subset _ _ hmem
      have htakemem : sid.component ∈ order.take (j + 1) := by
        rw [hown]
        exact get_mem_take hj (by omega)
      exact (List.disjoint_take_drop hnd (le_refl (j + 1))) htakemem hdropmem
    exact runUpdates_lookup_notin hsti hmid
  · intro hij
    have hnotin : sid.component ∉ order.take i := by
      intro hmem
      have hdropmem : sid.component ∈ order.drop i := by
        rw [hown]
        exact get_mem_drop hj hij
      exact (List.disjoint_take_drop hnd (le_refl i)) hmem hdropmem
    exact runUpdates_lookup_notin hsti hnotin

/-- Claim C4, witness: in the Sensor→Filter chain, the store handed to
`Filter` (position 1) shows `Sensor.x` (owner at position 0) at its
current-pass value. -/
theorem claim_C4_witness :
    ∃ sti stj,
      runUpdates mChain.components
        (([⟨1, "Sensor"⟩, ⟨1, "Filter"⟩] : List ComponentId).take 1)
        mChain.states = Except.ok sti ∧
      runUpdates mChain.components
        (([⟨1, "Sensor"⟩, ⟨1, "Filter"⟩] : List ComponentId).take (0 + 1))
        mChain.states = Except.ok stj ∧
      (0 < 1 → lookupCell sti ⟨⟨1, "Sensor"⟩, "x"⟩ =
        lookupCell stj ⟨⟨1, "Sensor"⟩, "x"⟩) ∧
      (1 ≤ 0 → lookupCell sti ⟨⟨1, "Sensor"⟩, "x"⟩ =
        lookupCell mChain.states ⟨⟨1, "Sensor"⟩, "x"⟩) :=
  @claim_C4 mChain.components [⟨1, "Sensor"⟩, ⟨1, "Filter"⟩] mChain.states
    [(⟨⟨1, "Sensor"⟩, "x"⟩, some ⟨"double", 1⟩),
      (⟨⟨1, "Filter"⟩, "y"⟩, some ⟨"double", 2⟩)]
    (by decide) rfl 1 0 (by decide) (by decide) ⟨⟨1, "Sensor"⟩, "x"⟩ rfl

theorem getState_error_iff {m : Manager} {log : List StateId}
    (inv : ManagerInv m log) (sid : StateId) (ty : String) :
    isErr (getStateImpl m.states sid ty) = true ↔
      (¬ declaredOutput m sid ∨
       (sid ∉ log ∧ declaredDefault m sid = none) ∨
       (∃ w : CppAny, lookupCell m.states sid = some (some w) ∧ w.ty ≠ ty)) := by
  unfold getStateImpl
  cases hc : lookupCell m.states sid with
  | none =>
    refine iff_of_true rfl (Or.inl ?_)
    intro hd
    have hx := (inv.cell_decl sid).mpr hd
    rw [hc] at hx
    simp at hx
  | some w0 =>
    cases w0 with
    | none =>
      refine iff_of_true rfl (Or.inr (Or.inl ?_))
      have hx := (inv.cell_empty sid).mp hc
      exact ⟨hx.2.1, hx.2.2⟩
    | some w =>
      have hdecl : declaredOutput m sid := (inv.cell_decl sid).mp (by rw [hc]; rfl)
      show isErr (if w.ty ≠ ty then
        Except.error (GncError.stateTypeMismatch sid ty w.ty) else Except.ok w) = true ↔ _
      by_cases hty : w.ty = ty
      · rw [if_neg (fun h => h hty)]
        refine iff_of_false (by simp [isErr]) ?_
        rintro (h1 | ⟨h2a, h2b⟩ | ⟨w2, hw2, hw2ty⟩)
        · exact absurd hdecl h1
        · have hx := (inv.cell_empty sid).mpr ⟨hdecl, h2a, h2b⟩
          rw [hc] at hx
          cases hx
        · injection hw2 with hw2
          injection hw2 with hw2
          exact absurd (hw2 ▸ hty) hw2ty
      · rw [if_pos hty]
        exact iff_of_true rfl (Or.inr (Or.inr ⟨w, rfl, hty⟩))

theorem setState_error_iff {m : Manager} {log : List StateId}
    (inv : ManagerInv m log) (sid : StateId) (v : CppAny) :
    isErr (setStateImpl m.states sid v) = true ↔ ¬ declaredOutput m sid := by
  unfold setStateImpl
  cases hc : lookupCell m.states sid with
  | none =>
    refine iff_of_true rfl ?_
    intro hd
    have hx := (inv.cell_decl sid).mpr hd
    rw [hc] at hx
    simp at hx
  | some w =>
    refine iff_of_false (by simp [isErr]) ?_
    intro h
    exact absurd ((inv.cell_decl sid).mp (by rw [hc]; rfl)) h

/-- Claim C7: for every reachable manager (any sequence of registrations and
writes from the empty manager), `getState` raises `StateAccessError` iff the
id is not a declared output of any registered component, or the cell was
never written and its declaration has no default (the cell holds the empty
any), or the stored concrete type tag differs from the requested one; and
`setState` raises iff no cell was ever declared for the id, otherwise it
replaces the cell's contents. -/
theorem claim_C7 (ops : List Op) (sid : StateId) (ty : String) (v : CppAny) :
    (isErr (getStateImpl (runOps emptyManager [] ops).1.states sid ty) = true ↔
      (¬ declaredOutput (runOps emptyManager [] ops).1 sid ∨
       (sid ∉ (runOps emptyManager [] ops).2 ∧
         declaredDefault (runOps emptyManager [] ops).1 sid = none) ∨
       (∃ w : CppAny, lookupCell (runOps emptyManager [] ops).1.states sid =
          some (some w) ∧ w.ty ≠ ty))) ∧
    (isErr (setStateImpl (runOps emptyManager [] ops).1.states sid v) = true ↔
      ¬ declaredOutput (runOps emptyManager [] ops).1 sid) :=
  ⟨getState_error_iff (managerInv_runOps managerInv_init ops) sid ty,
   setState_error_iff (managerInv_runOps managerInv_init ops) sid v⟩

/-- Claim C8: on every reachable manager, for every declared output id and
every type tag and payload, `setState` succeeds and a following `getState` at
the same type returns the value just written. -/
theorem claim_C8 (ops : List Op) (sid : StateId) (ty : String) (pv : Nat)
    (hdecl : declaredOutput (runOps emptyManager [] ops).1 sid) :
    ∃ st2,
      setStateImpl (runOps emptyManager [] ops).1.states sid ⟨ty, pv⟩ =
        Except.ok st2 ∧
      getStateImpl st2 sid ty = Except.ok ⟨ty, pv⟩ := by
  have inv := managerInv_runOps managerInv_init ops
  have hsome : (lookupCell (runOps emptyManager [] ops).1.states sid).isSome = true :=
    (inv.cell_decl sid).mpr hdecl
  refine ⟨setCell (runOps emptyManager [] ops).1.states sid (some ⟨ty, pv⟩), ?_, ?_⟩
  · unfold setStateImpl
    cases hc : lookupCell (runOps emptyManager [] ops).1.states sid with
    | none =>
      rw [hc] at hsome
      simp at hsome
    | some w => rfl
  · unfold getStateImpl
    rw [lookupCell_setCell_self hsome]
    simp

/-- Claim C8, witness: registering the `W` component and writing `out1` with
payload 7 round-trips. -/
theorem claim_C8_witness :
    declaredOutput (runOps emptyManager [] opsStore).1 ⟨⟨1, "W"⟩, "out1"⟩ ∧
    ∃ st2,
      setStateImpl (runOps emptyManager [] opsStore).1.states
        ⟨⟨1, "W"⟩, "out1"⟩ ⟨"double", 7⟩ = Except.ok st2 ∧
      getStateImpl st2 ⟨⟨1, "W"⟩, "out1"⟩ "double" = Except.ok ⟨"double", 7⟩ :=
  ⟨by decide, claim_C8 opsStore ⟨⟨1, "W"⟩, "out1"⟩ "double" 7 (by decide)⟩
